import Mathlib

/-!
# Gruntfile.js of opwen-webapp: the build configuration and its default task

The Gruntfile is one configuration object handed to `grunt.initConfig` and one
task registered with `grunt.registerTask`.  The configuration is embedded as
data, field by field; the behaviour of the Grunt runner on that data
(reading `package.json` when the Gruntfile loads, splitting `task:target`
names, expanding source patterns against the files present, flattened copies,
calling the minifiers, which may report an error that aborts the run, and
writing their output) is embedded as executable functions over a file system
given by its regular files.
-/

namespace Gruntfile

/-! ## Data model -/

/-- One element of the array `copy.bower.files`.  The properties `expand`,
`flatten`, `src` and `dest` are written on every element of the array; the
property `filter` is written on some elements only, hence the option. -/
structure CopyRule where
  expand : Bool
  flatten : Bool
  src : List String
  dest : String
  filter : Option String
  deriving DecidableEq

/-- One property of a `files` object of a minifier target: the key is the output
path, the value is the array of input paths. -/
structure MinifyRule where
  dest : String
  src : List String
  deriving DecidableEq

/-- The value of an option: the file uses booleans and one integer. -/
inductive OptVal where
  | bool (b : Bool)
  | num (n : Int)
  deriving DecidableEq

/-- An `options` object, in the order written. -/
abbrev Options := List (String × OptVal)

/-- The two shapes of a `files` property: an array of copy rules, or an object
from output path to input paths. -/
inductive Files where
  | array (rules : List CopyRule)
  | object (rules : List MinifyRule)
  deriving DecidableEq

/-- A target of a task: its own `options` object (empty when absent) and its
`files`. -/
structure TargetConfig where
  options : Options
  files : Files
  deriving DecidableEq

/-- A top-level property of the object passed to `grunt.initConfig`: either data
read from a JSON file (`pkg`), or the configuration of a task, with its
task-level `options` object (empty when absent) and its named targets. -/
inductive ConfigValue where
  | json (file : String)
  | task (options : Options) (targets : List (String × TargetConfig))
  deriving DecidableEq

/-! ## The configuration, as written in the file -/

/-- The property `copy.bower.files`, lines 12-62. -/
def copy.bower.files : List CopyRule :=
  [ { expand := true, flatten := true,
      src := ["bower_components/components-font-awesome/fonts/*"],
      dest := "opwen_email_client/webapp/static/fonts/",
      filter := some "isFile" },
    { expand := true, flatten := true,
      src := ["bower_components/bootstrap/fonts/*"],
      dest := "opwen_email_client/webapp/static/fonts/",
      filter := some "isFile" },
    { expand := true, flatten := true,
      src := [ "bower_components/flag-icon-css/flags/4x3/ca.svg",
               "bower_components/flag-icon-css/flags/4x3/cd.svg",
               "bower_components/flag-icon-css/flags/4x3/pt.svg",
               "bower_components/flag-icon-css/flags/4x3/tz.svg",
               "bower_components/flag-icon-css/flags/4x3/fr.svg" ],
      dest := "opwen_email_client/webapp/static/flags/4x3/",
      filter := none },
    { expand := true, flatten := true,
      src := [ "bower_components/jquery/dist/jquery.min.js",
               "bower_components/bootstrap/dist/js/bootstrap.min.js",
               "bower_components/bootstrap-fileinput/js/fileinput.min.js",
               "bower_components/bootstrap3-wysihtml5-bower/dist/bootstrap3-wysihtml5.all.min.js" ],
      dest := "opwen_email_client/webapp/static/js/",
      filter := none },
    { expand := true, flatten := true,
      src := [ "bower_components/components-font-awesome/css/font-awesome.min.css",
               "bower_components/flag-icon-css/css/flag-icon.min.css",
               "bower_components/bootstrap/dist/css/bootstrap.min.css",
               "bower_components/bootstrap-fileinput/css/fileinput.min.css",
               "bower_components/bootstrap3-wysihtml5-bower/dist/bootstrap3-wysihtml5.min.css" ],
      dest := "opwen_email_client/webapp/static/css/",
      filter := none } ]

/-- The property `copy.bower`, lines 11-63: no `options`, the array of copy rules. -/
def copy.bower : TargetConfig :=
  { options := [], files := .array copy.bower.files }

/-- The property `cssmin.options`, lines 67-70. -/
def cssmin.options : Options :=
  [("shorthandCompacting", .bool false), ("roundingPrecision", .num (-1))]

/-- The property `cssmin.target.files`, lines 72-82. -/
def cssmin.target.files : List MinifyRule :=
  [ { dest := "opwen_email_client/webapp/static/css/_base_email.min.css",
      src := ["opwen_email_client/webapp/static/css/_base_email.css"] },
    { dest := "opwen_email_client/webapp/static/css/about.min.css",
      src := ["opwen_email_client/webapp/static/css/about.css"] },
    { dest := "opwen_email_client/webapp/static/css/home.min.css",
      src := ["opwen_email_client/webapp/static/css/home.css"] } ]

/-- The property `cssmin.target`, lines 71-83. -/
def cssmin.target : TargetConfig :=
  { options := [], files := .object cssmin.target.files }

/-- The property `uglify.bower.options`, lines 88-91. -/
def uglify.bower.options : Options :=
  [("mangle", .bool true), ("compress", .bool true)]

/-- The property `uglify.bower.files`, lines 92-96. -/
def uglify.bower.files : List MinifyRule :=
  [ { dest := "opwen_email_client/webapp/static/js/printThis.min.js",
      src := ["bower_components/printThis/printThis.js"] } ]

/-- The property `uglify.bower`, lines 87-97. -/
def uglify.bower : TargetConfig :=
  { options := uglify.bower.options, files := .object uglify.bower.files }

/-- The property `uglify.app.options`, lines 99-102. -/
def uglify.app.options : Options :=
  [("mangle", .bool true), ("compress", .bool true)]

/-- The property `uglify.app.files`, lines 103-113. -/
def uglify.app.files : List MinifyRule :=
  [ { dest := "opwen_email_client/webapp/static/js/_base_email.min.js",
      src := ["opwen_email_client/webapp/static/js/_base_email.js"] },
    { dest := "opwen_email_client/webapp/static/js/email_new.min.js",
      src := ["opwen_email_client/webapp/static/js/email_new.js"] },
    { dest := "opwen_email_client/webapp/static/js/register.min.js",
      src := ["opwen_email_client/webapp/static/js/register.js"] } ]

/-- The property `uglify.app`, lines 98-114. -/
def uglify.app : TargetConfig :=
  { options := uglify.app.options, files := .object uglify.app.files }

/-- The object passed to `grunt.initConfig`, lines 7-117. -/
def initConfig : List (String × ConfigValue) :=
  [ ("pkg", .json "package.json"),
    ("copy", .task [] [("bower", copy.bower)]),
    ("cssmin", .task cssmin.options [("target", cssmin.target)]),
    ("uglify", .task [] [("bower", uglify.bower), ("app", uglify.app)]) ]

/-- The plugins loaded with `grunt.loadNpmTasks`, lines 3-5. -/
def loadNpmTasks : List String :=
  ["grunt-contrib-copy", "grunt-contrib-cssmin", "grunt-contrib-uglify"]

/-- The calls of `grunt.registerTask`, lines 119-124: the name of the task and its
list of sub-tasks. -/
def registerTask : List (String × List String) :=
  [ ("default", ["copy:bower", "cssmin", "uglify:bower", "uglify:app"]) ]


/-! ## Paths and source patterns -/

/-- The segments of a path: the pieces between slashes. -/
def splitSlash : List Char → List (List Char)
  | [] => [[]]
  | c :: cs =>
    if c = '/' then [] :: splitSlash cs
    else match splitSlash cs with
      | [] => [[c]]
      | seg :: rest => (c :: seg) :: rest

/-- Matching of one path segment against one pattern segment: `*` stands for
any run of characters of the segment, every other character for itself. -/
def segMatch : List Char → List Char → Bool
  | [], s => s.isEmpty
  | a :: p, s =>
    if a = '*' then s.tails.any (segMatch p)
    else match s with
      | [] => false
      | c :: s' => a == c && segMatch p s'

/-- A segment is accepted when it matches, a leading dot of the segment is
written in the pattern, and only the empty pattern accepts the empty segment. -/
def segOk (pat seg : List Char) : Bool :=
  segMatch pat seg && (seg.head? != some '.' || pat.head? == some '.')
    && (!seg.isEmpty || pat.isEmpty)

/-- Segment by segment matching of a path against a pattern. -/
def segsMatch : List (List Char) → List (List Char) → Bool
  | [], [] => true
  | p :: ps, s :: ss => segOk p s && segsMatch ps ss
  | _, _ => false

/-- Whether a path matches a source pattern.  The patterns of the file are made
of literal characters, `/` and `*`; this is the matching Grunt applies to
them. -/
def globMatch (pat path : String) : Bool :=
  segsMatch (splitSlash pat.data) (splitSlash path.data)

/-- Node's `path.basename` on a list of characters: trailing slashes are dropped,
what follows the last remaining slash is kept. -/
def basenameChars (p : List Char) : List Char :=
  ((p.reverse.dropWhile (· == '/')).takeWhile (· != '/')).reverse

/-- Node's `path.basename`. -/
def basename (p : String) : String := ⟨basenameChars p.data⟩

/-- Whether a destination is written as a directory (it ends in a slash). -/
def endsWithSlash (p : String) : Bool := p.data.getLast? == some '/'

/-- Joining a directory and a relative path. -/
def joinPath (dir file : String) : String :=
  if dir = "" then file
  else if endsWithSlash dir then dir ++ file
  else dir ++ "/" ++ file

/-! ## The file system -/

/-- The regular files present, as (path, content) entries; the first entry of a
path is the current one.  Directories are the proper ancestors of the paths. -/
abbrev FS := List (String × String)

/-- The content of the file at a path, if there is one. -/
def FS.read (fs : FS) (p : String) : Option String := List.lookup p fs

/-- Writing a file: the new entry comes first. -/
def FS.write (fs : FS) (p c : String) : FS := (p, c) :: fs

/-- The paths of the files present, each once. -/
def FS.paths (fs : FS) : List String := (fs.map Prod.fst).dedup

/-- The files matched by a list of source patterns (`grunt.file.expand`), each
once. -/
def expandPatterns (fs : FS) (patterns : List String) : List String :=
  (patterns.flatMap (fun pat => fs.paths.filter (globMatch pat))).dedup

/-- The `filter` property of a rule: absent, every match is kept; `isFile` keeps
the regular files; every entry of the file system is a regular file, so any
other test of `fs.Stats` rejects it. -/
def passesFilter (fs : FS) : Option String → String → Bool
  | none, _ => true
  | some f, p => f == "isFile" && (fs.read p).isSome

/-! ## Tasks -/

/-- A `files` property in the one form Grunt gives it: the object form is a list
of rules without `expand`, `flatten` and `filter`. -/
def Files.normalize : Files → List CopyRule
  | .array rules => rules
  | .object rules => rules.map (fun m =>
      { expand := false, flatten := false, src := m.src, dest := m.dest, filter := none })

/-- A source-destination mapping of a running task (an element of
`this.files`). -/
structure Mapping where
  src : List String
  dest : String
  expanded : Bool
  deriving DecidableEq

/-- The mappings of one rule: with `expand`, one mapping for each matched source,
to `dest` joined with the source path, or with its base name under
`flatten`; without `expand`, one mapping from all matched sources to
`dest`. -/
def ruleMappings (fs : FS) (r : CopyRule) : List Mapping :=
  let srcs := (expandPatterns fs r.src).filter (passesFilter fs r.filter)
  if r.expand then
    srcs.map (fun s =>
      { src := [s], dest := joinPath r.dest (if r.flatten then basename s else s),
        expanded := true })
  else [{ src := srcs, dest := r.dest, expanded := false }]

/-- The (source, destination) pairs the copy task goes through for a mapping: a
destination written as a directory of a mapping without `expand` receives
the source under its own path. -/
def copyPairs (m : Mapping) : List (String × String) :=
  m.src.map (fun s =>
    (s, if endsWithSlash m.dest && !m.expanded then joinPath m.dest s else m.dest))

/-- The (source, destination) pairs of a copy rule. -/
def copyWrites (fs : FS) (r : CopyRule) : List (String × String) :=
  (ruleMappings fs r).flatMap copyPairs

/-- Copying one file: the destination receives the content of the source. -/
def copyFile (fs : FS) (sd : String × String) : FS :=
  match fs.read sd.1 with
  | some c => fs.write sd.2 c
  | none => fs

/-- The copy task on a target: the mappings are computed when the task starts,
the files are then copied one after the other. -/
def copyTask (files : Files) (fs : FS) : FS :=
  (files.normalize.flatMap (copyWrites fs)).foldl copyFile fs

/-- A minifier (clean-css, UglifyJS), as the plugins call it: it is given the
options, the file system and the paths of the sources; it reads the sources,
and whatever else of the file system it chooses to (an imported style
sheet), and either returns the minified text or reports an error. -/
abbrev Minifier := Options → FS → List String → Option String

/-- Minifying one mapping; the second component tells whether the task goes on.
With sources present, the minifier is called: its output is written to the
destination, its error is a warning that aborts the run.  Without any
source present, cssmin writes an empty destination and uglify writes
nothing. -/
def minifyMapping (tool : Minifier) (opts : Options) (writeEmpty : Bool) (fs : FS)
    (m : Mapping) : FS × Bool :=
  if m.src.isEmpty then (if writeEmpty then fs.write m.dest "" else fs, true)
  else
    match tool opts fs m.src with
    | some out => (fs.write m.dest out, true)
    | none => (fs, false)

/-- The (source, destination) pairs of a minify rule: every source of a mapping
goes to the destination of the mapping. -/
def minifyWrites (fs : FS) (r : CopyRule) : List (String × String) :=
  (ruleMappings fs r).flatMap (fun m => m.src.map (fun s => (s, m.dest)))

/-- The options of a target: its own, then those of the task it does not
redefine. -/
def mergeOptions (taskOpts targetOpts : Options) : Options :=
  targetOpts ++ taskOpts.filter (fun o => !(targetOpts.map Prod.fst).contains o.1)

/-- What the run calls outside the Gruntfile: the two minifiers of the plugins,
and the JSON parser of `grunt.file.readJSON`, as the test whether a text
parses. -/
structure Tools where
  cssmin : Minifier
  uglify : Minifier
  parsesJSON : String → Bool

/-- The task a loaded plugin provides: `grunt-contrib-X` provides `X`. -/
def pluginTask (plugin : String) : Option String :=
  if "grunt-contrib-".data.isPrefixOf plugin.data then
    some ⟨plugin.data.drop "grunt-contrib-".length⟩
  else none

/-- The tasks provided by the loaded plugins. -/
def loadedTasks : List String := loadNpmTasks.filterMap pluginTask

/-- A sub-task name, split at its first colon into task and target. -/
def splitColon (name : String) : String × Option String :=
  let task := name.data.takeWhile (· != ':')
  match name.data.dropWhile (· != ':') with
  | [] => (⟨task⟩, none)
  | _ :: target => (⟨task⟩, some ⟨target⟩)

/-- The targets of a task in the configuration. -/
def taskTargets (task : String) : Option (Options × List (String × TargetConfig)) :=
  match initConfig.lookup task with
  | some (.task opts targets) => some (opts, targets)
  | _ => none

/-- A resolved sub-task: the task, the target, the merged options and the files. -/
structure Job where
  task : String
  target : String
  options : Options
  files : Files
  deriving DecidableEq

/-- Resolution of a sub-task name: the task is provided by a loaded plugin and
configured; `task:target` names a configured target; `task` alone stands for
all its targets, of which there is at least one. -/
def resolve (name : String) : Option (List Job) :=
  let (task, target) := splitColon name
  if loadedTasks.contains task then
    match taskTargets task with
    | none => none
    | some (opts, targets) =>
      match target with
      | some t =>
        (targets.lookup t).map (fun tc =>
          [{ task := task, target := t, options := mergeOptions opts tc.options,
             files := tc.files }])
      | none =>
        if targets.isEmpty then none
        else some (targets.map (fun tt =>
          { task := task, target := tt.1, options := mergeOptions opts tt.2.options,
            files := tt.2.files }))
  else none

/-- The jobs of a registered task, in order; none when a name does not
resolve. -/
def taskJobs (name : String) : Option (List Job) :=
  match registerTask.lookup name with
  | none => none
  | some subs => (subs.mapM resolve).map List.flatten

/-! ## Running a task -/

/-- One (rule, source) pair of a run: the job and the rule it comes from, the
source read and the output path written. -/
structure Write where
  task : String
  target : String
  rule : CopyRule
  src : String
  dest : String
  deriving DecidableEq

/-- The (rule, source) pairs of one job on the file system it starts on, in
order. -/
def jobWrites (fs : FS) (j : Job) : List Write :=
  if j.task = "copy" then
    j.files.normalize.flatMap (fun r =>
      (copyWrites fs r).map (fun sd => ⟨j.task, j.target, r, sd.1, sd.2⟩))
  else if j.task = "cssmin" ∨ j.task = "uglify" then
    j.files.normalize.flatMap (fun r =>
      (minifyWrites fs r).map (fun sd => ⟨j.task, j.target, r, sd.1, sd.2⟩))
  else []

/-- What a job leaves: the file system, whether the run goes on (no warning was
raised), and the (rule, source) pairs it went through. -/
structure JobResult where
  fs : FS
  ok : Bool
  writes : List Write

/-- The mappings of a target with the rule each comes from, computed when the
task starts. -/
def taggedMappings (fs : FS) (files : Files) : List (CopyRule × Mapping) :=
  files.normalize.flatMap (fun r => (ruleMappings fs r).map (fun m => (r, m)))

/-- Minifying the mappings of a target one after the other, up to the first
error of the minifier, which aborts the run: the mappings that follow are
not minified. -/
def minifyAll (step : FS → Mapping → FS × Bool) (task target : String) :
    List (CopyRule × Mapping) → FS → JobResult
  | [], fs => ⟨fs, true, []⟩
  | rm :: rest, fs =>
    if (step fs rm.2).2 then
      ⟨(minifyAll step task target rest (step fs rm.2).1).fs,
        (minifyAll step task target rest (step fs rm.2).1).ok,
        rm.2.src.map (fun s => ⟨task, target, rm.1, s, rm.2.dest⟩)
          ++ (minifyAll step task target rest (step fs rm.2).1).writes⟩
    else ⟨(step fs rm.2).1, false, []⟩

/-- Running one job: the copy task, or one of the two minify tasks with its
minifier; cssmin writes an empty destination for a mapping without source,
uglify does not. -/
def runJob (tools : Tools) (fs : FS) (j : Job) : JobResult :=
  if j.task = "copy" then ⟨copyTask j.files fs, true, jobWrites fs j⟩
  else if j.task = "cssmin" then
    minifyAll (minifyMapping tools.cssmin j.options true) j.task j.target
      (taggedMappings fs j.files) fs
  else if j.task = "uglify" then
    minifyAll (minifyMapping tools.uglify j.options false) j.task j.target
      (taggedMappings fs j.files) fs
  else ⟨fs, true, []⟩

/-- How a run ends: at its end, or before any task because the Gruntfile did not
load, or a sub-task name did not resolve, or in a job whose minifier
reported an error. -/
inductive Status where
  | done
  | loadFailed
  | unresolved
  | toolFailed (task target : String)
  deriving DecidableEq

/-- What a run leaves: the file system, how the run ended, and the (rule,
source) pairs it went through. -/
structure Outcome where
  fs : FS
  status : Status
  writes : List Write

/-- Running a list of jobs, one after the other, up to the first job that
aborts. -/
def runJobs (tools : Tools) : List Job → FS → Outcome
  | [], fs => ⟨fs, .done, []⟩
  | j :: js, fs =>
    if (runJob tools fs j).ok then
      ⟨(runJobs tools js (runJob tools fs j).fs).fs,
        (runJobs tools js (runJob tools fs j).fs).status,
        (runJob tools fs j).writes ++ (runJobs tools js (runJob tools fs j).fs).writes⟩
    else ⟨(runJob tools fs j).fs, .toolFailed j.task j.target, (runJob tools fs j).writes⟩

/-- Loading the Gruntfile: every file the configuration reads with
`grunt.file.readJSON` (line 8: `package.json`) is present and parses. -/
def loadGruntfile (tools : Tools) (fs : FS) : Bool :=
  initConfig.all (fun kv =>
    match kv.2 with
    | .json file =>
      match fs.read file with
      | some c => tools.parsesJSON c
      | none => false
    | .task _ _ => true)

/-- Running a registered task on a file system: the Gruntfile is loaded, the
sub-task names are resolved, the jobs are run. -/
def runTask (tools : Tools) (name : String) (fs : FS) : Outcome :=
  if loadGruntfile tools fs then
    match taskJobs name with
    | some jobs => runJobs tools jobs fs
    | none => ⟨fs, .unresolved, []⟩
  else ⟨fs, .loadFailed, []⟩

/-- The (rule, source) pairs a run of a registered task goes through. -/
def taskTrace (tools : Tools) (name : String) (fs : FS) : List Write :=
  (runTask tools name fs).writes

/-! ## Properties of paths used in the statements -/

/-- Whether a source pattern contains a wildcard. -/
def hasStar (pat : String) : Bool := pat.data.contains '*'

/-- The static-asset tree of the web application. -/
def staticRoot : String := "opwen_email_client/webapp/static/"

/-- The four sub-directories of the static-asset tree. -/
def staticDirs : List String := ["fonts/", "flags/", "js/", "css/"]

/-- Whether a path starts with the static-asset tree followed by one of its four
sub-directories. -/
def underStatic (p : String) : Bool :=
  staticDirs.any (fun d => (staticRoot ++ d).data.isPrefixOf p.data)

/-- The dependency directory. -/
def bowerRoot : String := "bower_components"

/-- The package named by the segments of a path: the first segment is the
dependency directory, the second a non-empty package name without wildcard,
and a path inside the package follows. -/
def packageOfSegs : List (List Char) → Option String
  | root :: pkg :: _ :: _ =>
    if root = bowerRoot.data ∧ pkg ≠ [] ∧ ¬ '*' ∈ pkg then some ⟨pkg⟩ else none
  | _ => none

/-- The package a source pattern or path reads from. -/
def packageOf (pat : String) : Option String := packageOfSegs (splitSlash pat.data)

/-- A file name cut before its last dot: the stem and the extension (Node's
`path.extname`, which is empty when there is no dot). -/
def splitExt (b : List Char) : List Char × List Char :=
  match b.reverse.dropWhile (· != '.') with
  | [] => (b, [])
  | _ :: stem => (stem.reverse, '.' :: (b.reverse.takeWhile (· != '.')).reverse)

/-- The extension of a path. -/
def extname (p : String) : String := ⟨(splitExt (basename p).data).2⟩

/-- A file name with `.min` inserted before its extension. -/
def minName (b : String) : String :=
  ⟨(splitExt b.data).1 ++ ".min".data ++ (splitExt b.data).2⟩

/-- The targets the configuration defines, as (task, target) pairs in the order
written. -/
def configuredTargets : List (String × String) :=
  initConfig.flatMap (fun kv =>
    match kv.2 with
    | .json _ => []
    | .task _ targets => targets.map (fun tt => (kv.1, tt.1)))

/-- The minify rules of the three minifier targets. -/
def minifyRules : List MinifyRule :=
  cssmin.target.files ++ uglify.bower.files ++ uglify.app.files

/-! ## Auxiliary definitions of the proofs -/

/-- The path made of a list of segments. -/
def joinSlash : List (List Char) → List Char
  | [] => []
  | [a] => a
  | a :: b :: r => a ++ '/' :: joinSlash (b :: r)

/-- The jobs of the default task. -/
def defaultJobs : List Job := (taskJobs "default").getD []

/-- The output path of a rule of a job for a source: a copy writes `dest` joined
with the base name of the source, a minifier writes `dest`. -/
def destFor (j : Job) (r : CopyRule) (s : String) : String :=
  if j.task = "copy" then joinPath r.dest (basename s) else r.dest

/-- The writes of the default task whose source is written without wildcard in
the configuration. -/
def literalWrites : List Write :=
  defaultJobs.flatMap (fun j => j.files.normalize.flatMap (fun r =>
    (r.src.filter (fun s => !hasStar s)).map
      (fun s => ⟨j.task, j.target, r, s, destFor j r s⟩)))

/-- The copy rules whose source is a wildcard pattern: the two font rules. -/
def fontRules : List CopyRule := copy.bower.files.filter (fun r => r.src.any hasStar)

/-- The destination of the two font rules. -/
def fontsDir : String := "opwen_email_client/webapp/static/fonts/"

/-- The directory of a pattern `dir/*`. -/
def fontDirOf (pat : String) : List Char := pat.data.dropLast.dropLast

/-- A write of a font rule: the source is `dir/name` for the pattern `dir/*` of
the rule, the output is the fonts directory followed by `name`. -/
def IsFontWrite (w : Write) : Prop :=
  w.task = "copy" ∧ w.target = "bower" ∧ w.rule ∈ fontRules ∧
    ∃ (pat : String) (name : List Char), w.rule.src = [pat] ∧ name ≠ [] ∧ ¬ '/' ∈ name
      ∧ w.src.data = fontDirOf pat ++ '/' :: name
      ∧ w.dest.data = fontsDir.data ++ name
      ∧ (basename w.src).data = name

/-! ## Stand-ins for the statements at concrete inputs -/

/-- Stand-ins for the tools: a minifier that returns the concatenation of the
contents of its sources and reports no error, and a parser that accepts the
empty object. -/
def concatTools : Tools :=
  { cssmin := fun _ fs srcs => some (String.join (srcs.filterMap fs.read)),
    uglify := fun _ fs srcs => some (String.join (srcs.filterMap fs.read)),
    parsesJSON := fun c => c == "\x7b\x7d" }

/-- A project with its `package.json` and a dependency directory in which the two
fonts directories both hold a file named `a.ttf`. -/
def fsClash : FS :=
  [ ("package.json", "\x7b\x7d"),
    ("bower_components/components-font-awesome/fonts/a.ttf", "awesome"),
    ("bower_components/bootstrap/fonts/a.ttf", "bootstrap") ]

/-- The (rule, source) pairs of a run of the default task write each output path
at most once: two pairs with the same output path are the same pair. -/
def WritesOnce (tools : Tools) (fs : FS) : Prop :=
  ∀ w ∈ taskTrace tools "default" fs, ∀ w2 ∈ taskTrace tools "default" fs,
    w.dest = w2.dest → w = w2


/-- The write of `a.ttf` by the rule of the font-awesome fonts. -/
def clashWrite1 : Write :=
  { task := "copy", target := "bower",
    rule := { expand := true, flatten := true,
              src := ["bower_components/components-font-awesome/fonts/*"],
              dest := "opwen_email_client/webapp/static/fonts/",
              filter := some "isFile" },
    src := "bower_components/components-font-awesome/fonts/a.ttf",
    dest := "opwen_email_client/webapp/static/fonts/a.ttf" }

/-- The write of `a.ttf` by the rule of the bootstrap fonts. -/
def clashWrite2 : Write :=
  { task := "copy", target := "bower",
    rule := { expand := true, flatten := true,
              src := ["bower_components/bootstrap/fonts/*"],
              dest := "opwen_email_client/webapp/static/fonts/",
              filter := some "isFile" },
    src := "bower_components/bootstrap/fonts/a.ttf",
    dest := "opwen_email_client/webapp/static/fonts/a.ttf" }

/-- The source paths the configuration refers to: the sources written without
wildcard. -/
def referencedSources : List String := literalWrites.map (fun w => w.src)

/-- The destination files the configuration lists: the outputs of the sources
written without wildcard. -/
def listedDestinations : List String := literalWrites.map (fun w => w.dest)

/-- Whether a file exists and is not empty. -/
def nonEmptyAt (fs : FS) (p : String) : Bool :=
  match fs.read p with
  | some c => c != ""
  | none => false

/-- A project with its `package.json` in which every referenced source exists and
holds the text `x`, except the flag `ca.svg`, which exists and is empty. -/
def fsEmptyFlag : FS :=
  ("package.json", "\x7b\x7d") ::
    referencedSources.map (fun s =>
      (s, if s = "bower_components/flag-icon-css/flags/4x3/ca.svg" then "" else "x"))

/-- What the job of a listed write leaves at its output, in terms of the file
system before the run: a copy leaves the content of the source; a minifier
leaves the text it returned when called on the sources of the rule, on a
file system in which these sources read as before the run. -/
def Produced (tools : Tools) (j : Job) (w : Write) (fs0 : FS) (v : Option String) : Prop :=
  (j.task = "copy" → v = fs0.read w.src)
    ∧ (j.task = "cssmin" → ∃ (at0 : FS) (c : String),
        tools.cssmin j.options at0 w.rule.src = some c
          ∧ (∀ s ∈ w.rule.src, at0.read s = fs0.read s) ∧ v = some c)
    ∧ (j.task = "uglify" → ∃ (at0 : FS) (c : String),
        tools.uglify j.options at0 w.rule.src = some c
          ∧ (∀ s ∈ w.rule.src, at0.read s = fs0.read s) ∧ v = some c)

/-! ## Segments and patterns -/

theorem splitSlash_ne_nil (s : List Char) : splitSlash s ≠ [] := by
  cases s with
  | nil => simp [splitSlash]
  | cons c cs =>
    unfold splitSlash
    split
    · simp
    · split <;> simp

theorem joinSlash_cons_cons (c : Char) (seg : List Char) (rest : List (List Char)) :
    joinSlash ((c :: seg) :: rest) = c :: joinSlash (seg :: rest) := by
  cases rest <;> simp [joinSlash]

theorem joinSlash_splitSlash (s : List Char) : joinSlash (splitSlash s) = s := by
  induction s with
  | nil => simp [splitSlash, joinSlash]
  | cons c cs ih =>
    unfold splitSlash
    split
    · next h =>
      subst h
      cases hs : splitSlash cs with
      | nil => exact absurd hs (splitSlash_ne_nil cs)
      | cons b r => rw [hs] at ih; simp [joinSlash, ih]
    · cases hs : splitSlash cs with
      | nil => exact absurd hs (splitSlash_ne_nil cs)
      | cons b r => rw [hs] at ih; simp [joinSlash_cons_cons, ih]

theorem splitSlash_injective {s t : List Char} (h : splitSlash s = splitSlash t) : s = t := by
  rw [← joinSlash_splitSlash s, ← joinSlash_splitSlash t, h]

theorem mem_splitSlash {s seg : List Char} (h : seg ∈ splitSlash s) :
    ∀ c ∈ seg, c ∈ s ∧ c ≠ '/' := by
  induction s generalizing seg with
  | nil =>
    simp [splitSlash] at h
    subst h
    simp
  | cons a cs ih =>
    unfold splitSlash at h
    split at h
    · rcases List.mem_cons.1 h with h | h
      · subst h; simp
      · intro c hc
        exact ⟨List.mem_cons_of_mem _ (ih h c hc).1, (ih h c hc).2⟩
    · next hne =>
      cases hs : splitSlash cs with
      | nil => exact absurd hs (splitSlash_ne_nil cs)
      | cons b r =>
        rw [hs] at h ih
        simp only [List.mem_cons] at h
        rcases h with h | h
        · subst h
          intro c hc
          rcases List.mem_cons.1 hc with hc | hc
          · subst hc; exact ⟨List.mem_cons_self _ _, hne⟩
          · exact ⟨List.mem_cons_of_mem _ (ih (List.mem_cons_self _ _) c hc).1,
              (ih (List.mem_cons_self _ _) c hc).2⟩
        · intro c hc
          exact ⟨List.mem_cons_of_mem _ (ih (List.mem_cons_of_mem _ h) c hc).1,
            (ih (List.mem_cons_of_mem _ h) c hc).2⟩

theorem splitSlash_cons_of_ne {c : Char} {cs b : List Char} {r : List (List Char)}
    (hc : c ≠ '/') (hs : splitSlash cs = b :: r) : splitSlash (c :: cs) = (c :: b) :: r := by
  simp only [splitSlash, hc, if_false, hs]

theorem splitSlash_append_slash (d t : List Char) :
    splitSlash (d ++ '/' :: t) = splitSlash d ++ splitSlash t := by
  induction d with
  | nil => simp [splitSlash]
  | cons c cs ih =>
    by_cases hc : c = '/'
    · subst hc
      simp [splitSlash, ih]
    · cases hs : splitSlash cs with
      | nil => exact absurd hs (splitSlash_ne_nil cs)
      | cons b r =>
        have ih2 : splitSlash (cs ++ '/' :: t) = b :: (r ++ splitSlash t) := by
          rw [ih, hs]; rfl
        rw [List.cons_append, splitSlash_cons_of_ne hc ih2, splitSlash_cons_of_ne hc hs]
        rfl

theorem joinSlash_append_singleton (ps : List (List Char)) (x : List Char) (h : ps ≠ []) :
    joinSlash (ps ++ [x]) = joinSlash ps ++ '/' :: x := by
  induction ps with
  | nil => exact absurd rfl h
  | cons a r ih =>
    cases r with
    | nil => simp [joinSlash]
    | cons b r2 =>
      have := ih (by simp)
      simp only [List.cons_append] at this ⊢
      simp [joinSlash, this]

theorem segMatch_literal {p s : List Char} (hp : ¬ '*' ∈ p) (h : segMatch p s = true) :
    s = p := by
  induction p generalizing s with
  | nil =>
    simp [segMatch] at h
    exact h
  | cons a p ih =>
    have ha : a ≠ '*' := fun e => hp (by simp [e])
    have hp2 : ¬ '*' ∈ p := fun e => hp (List.mem_cons_of_mem _ e)
    cases s with
    | nil => simp [segMatch, ha] at h
    | cons c s =>
      simp only [segMatch, ha, if_false, Bool.and_eq_true, beq_iff_eq] at h
      rw [h.1, ih hp2 h.2]

theorem segOk_literal {p s : List Char} (hp : ¬ '*' ∈ p) (h : segOk p s = true) : s = p := by
  unfold segOk at h
  simp only [Bool.and_eq_true] at h
  exact segMatch_literal hp h.1.1

theorem segsMatch_append_last {ps : List (List Char)} {q : List Char}
    {ss : List (List Char)} (hps : ∀ p ∈ ps, ¬ '*' ∈ p)
    (h : segsMatch (ps ++ [q]) ss = true) :
    ∃ name, ss = ps ++ [name] ∧ segOk q name = true := by
  induction ps generalizing ss with
  | nil =>
    cases ss with
    | nil => simp [segsMatch] at h
    | cons s ss =>
      cases ss with
      | nil =>
        simp only [List.nil_append, segsMatch, Bool.and_true] at h
        exact ⟨s, rfl, h⟩
      | cons s2 ss2 => simp [segsMatch] at h
  | cons p ps ih =>
    cases ss with
    | nil => simp [segsMatch] at h
    | cons s ss =>
      simp only [List.cons_append, segsMatch, Bool.and_eq_true] at h
      obtain ⟨name, hname, hok⟩ := ih (fun p hp => hps p (List.mem_cons_of_mem _ hp)) h.2
      refine ⟨name, ?_, hok⟩
      rw [segOk_literal (hps p (List.mem_cons_self _ _)) h.1, hname]
      rfl

theorem segsMatch_literal {ps ss : List (List Char)} (hps : ∀ p ∈ ps, ¬ '*' ∈ p)
    (h : segsMatch ps ss = true) : ss = ps := by
  induction ps generalizing ss with
  | nil =>
    cases ss with
    | nil => rfl
    | cons s ss => simp [segsMatch] at h
  | cons p ps ih =>
    cases ss with
    | nil => simp [segsMatch] at h
    | cons s ss =>
      simp only [segsMatch, Bool.and_eq_true] at h
      rw [segOk_literal (hps p (List.mem_cons_self _ _)) h.1,
        ih (fun p hp => hps p (List.mem_cons_of_mem _ hp)) h.2]

/-- A pattern without wildcard matches itself only. -/
theorem globMatch_literal {pat path : String} (hp : hasStar pat = false)
    (h : globMatch pat path = true) : path = pat := by
  have hstar : ¬ '*' ∈ pat.data := by
    simpa [hasStar] using hp
  have hsegs : ∀ p ∈ splitSlash pat.data, ¬ '*' ∈ p :=
    fun p hp hc => hstar (mem_splitSlash hp _ hc).1
  exact String.ext (splitSlash_injective (segsMatch_literal hsegs h))

theorem basenameChars_append (d name : List Char) (hne : name ≠ [])
    (hs : ¬ '/' ∈ name) : basenameChars (d ++ '/' :: name) = name := by
  unfold basenameChars
  have hrev : (d ++ '/' :: name).reverse = name.reverse ++ '/' :: d.reverse := by simp
  rw [hrev]
  have hall : ∀ a ∈ name.reverse, (a != '/') = true := by
    intro a ha
    have : a ∈ name := List.mem_reverse.1 ha
    simp only [bne_iff_ne, ne_eq]
    intro e
    exact hs (e ▸ this)
  have hdrop : (name.reverse ++ '/' :: d.reverse).dropWhile (· == '/')
      = name.reverse ++ '/' :: d.reverse := by
    cases hr : name.reverse with
    | nil => exact absurd (List.reverse_eq_nil_iff.1 hr) hne
    | cons x xs =>
      have hx : (x != '/') = true := hall x (by rw [hr]; exact List.mem_cons_self _ _)
      have hx2 : ¬ ((x == '/') = true) := by
        simpa [bne_iff_ne] using hx
      simp [List.dropWhile_cons, hx2]
  rw [hdrop, List.takeWhile_append_of_pos hall]
  simp

/-- A pattern `dir/*` matches the paths `dir/name` only, where `name` is a
non-empty segment; the base name of such a path is `name`. -/
theorem globMatch_dir_star {d : List Char} {pat path : String}
    (hpat : pat.data = d ++ ['/', '*']) (hd : ¬ '*' ∈ d)
    (h : globMatch pat path = true) :
    ∃ name : List Char, name ≠ [] ∧ ¬ '/' ∈ name ∧ path.data = d ++ '/' :: name
      ∧ (basename path).data = name := by
  unfold globMatch at h
  rw [hpat, splitSlash_append_slash] at h
  have hstar : splitSlash ['*'] = [['*']] := by decide
  rw [hstar] at h
  have hsegs : ∀ p ∈ splitSlash d, ¬ '*' ∈ p :=
    fun p hp hc => hd (mem_splitSlash hp _ hc).1
  obtain ⟨name, hss, hok⟩ := segsMatch_append_last hsegs h
  have hne : name ≠ [] := by
    intro e
    subst e
    simp [segOk] at hok
  have hslash : ¬ '/' ∈ name := by
    intro hc
    have hmem : name ∈ splitSlash path.data := by
      rw [hss]; simp
    exact (mem_splitSlash hmem _ hc).2 rfl
  have hpath : path.data = d ++ '/' :: name := by
    rw [← joinSlash_splitSlash path.data, hss,
      joinSlash_append_singleton _ _ (splitSlash_ne_nil d), joinSlash_splitSlash]
  refine ⟨name, hne, hslash, hpath, ?_⟩
  show basenameChars path.data = name
  rw [hpath]
  exact basenameChars_append d name hne hslash

/-! ## The writes of a job -/

theorem mem_paths {fs : FS} {p : String} : p ∈ fs.paths ↔ (fs.read p).isSome = true := by
  unfold FS.paths FS.read
  rw [List.mem_dedup]
  induction fs with
  | nil => simp
  | cons e fs ih =>
    obtain ⟨k, v⟩ := e
    by_cases hk : p = k
    · subst hk
      simp [List.lookup_cons]
    · have hb : (p == k) = false := by simpa using hk
      simp only [List.map_cons, List.mem_cons, hk, false_or, List.lookup_cons, hb]
      exact ih

theorem mem_expandPatterns {fs : FS} {pats : List String} {s : String} :
    s ∈ expandPatterns fs pats
      ↔ ∃ pat ∈ pats, (fs.read s).isSome = true ∧ globMatch pat s = true := by
  unfold expandPatterns
  simp only [List.mem_dedup, List.mem_flatMap, List.mem_filter, mem_paths]

theorem flatMap_map_singleton {α β γ : Type} (l : List α) (f : α → β) (g : β → γ) :
    (l.map f).flatMap (fun b => [g b]) = l.map (fun a => g (f a)) := by
  induction l with
  | nil => rfl
  | cons a l ih => simp [List.flatMap_cons, ih]

theorem copyWrites_eq (fs : FS) {r : CopyRule} (he : r.expand = true)
    (hf : r.flatten = true) :
    copyWrites fs r
      = ((expandPatterns fs r.src).filter (passesFilter fs r.filter)).map
          (fun s => (s, joinPath r.dest (basename s))) := by
  unfold copyWrites ruleMappings
  simp only [he, hf, if_true]
  have hpairs : copyPairs = fun m : Mapping =>
      m.src.map (fun s =>
        (s, if endsWithSlash m.dest && !m.expanded then joinPath m.dest s else m.dest)) := by
    funext m; rfl
  induction (expandPatterns fs r.src).filter (passesFilter fs r.filter) with
  | nil => rfl
  | cons a l ih =>
    simp only [List.map_cons, List.flatMap_cons, ih]
    simp [copyPairs]

theorem minifyWrites_eq (fs : FS) {r : CopyRule} (he : r.expand = false) :
    minifyWrites fs r
      = ((expandPatterns fs r.src).filter (passesFilter fs r.filter)).map
          (fun s => (s, r.dest)) := by
  unfold minifyWrites ruleMappings
  simp [he]

theorem joinPath_dir {dir : String} (file : String) (hne : dir ≠ "")
    (hs : endsWithSlash dir = true) : joinPath dir file = dir ++ file := by
  simp [joinPath, hne, hs]

/-- The shape of the default jobs: copy rules are expanded and flattened into a
directory, minify rules are not expanded. -/
theorem defaultJobs_shape :
    ∀ j ∈ defaultJobs,
      (j.task = "copy" ∨ j.task = "cssmin" ∨ j.task = "uglify")
      ∧ (j.task = "copy" → ∀ r ∈ j.files.normalize,
          r.expand = true ∧ r.flatten = true ∧ r.dest ≠ "" ∧ endsWithSlash r.dest = true)
      ∧ (j.task ≠ "copy" → ∀ r ∈ j.files.normalize, r.expand = false) := by
  decide

/-- The wildcard patterns of the default jobs: the one pattern `dir/*` of each of
the two font rules of `copy:bower`. -/
theorem defaultJobs_star :
    ∀ j ∈ defaultJobs, ∀ r ∈ j.files.normalize, ∀ pat ∈ r.src, hasStar pat = true →
      j.task = "copy" ∧ j.target = "bower" ∧ r ∈ fontRules ∧ r.src = [pat]
        ∧ r.dest = fontsDir ∧ pat.data = fontDirOf pat ++ ['/', '*']
        ∧ ¬ '*' ∈ fontDirOf pat := by
  decide

/-- Every write of a default job comes from a rule of the job and a pattern of
the rule matched by the source, which is present, and goes to the output of
the rule for that source. -/
theorem mem_jobWrites {fs : FS} {j : Job} (hj : j ∈ defaultJobs) {w : Write}
    (hw : w ∈ jobWrites fs j) :
    ∃ r ∈ j.files.normalize, ∃ pat ∈ r.src, globMatch pat w.src = true
      ∧ (fs.read w.src).isSome = true
      ∧ w = ⟨j.task, j.target, r, w.src, destFor j r w.src⟩ := by
  obtain ⟨hkind, hcopy, hmin⟩ := defaultJobs_shape j hj
  unfold jobWrites at hw
  by_cases hc : j.task = "copy"
  · simp only [hc, if_true, List.mem_flatMap, List.mem_map] at hw
    obtain ⟨r, hr, sd, hsd, rfl⟩ := hw
    obtain ⟨he, hf, _, _⟩ := hcopy hc r hr
    rw [copyWrites_eq fs he hf] at hsd
    simp only [List.mem_map, List.mem_filter, mem_expandPatterns] at hsd
    obtain ⟨s, ⟨⟨pat, hpat, hread, hmatch⟩, _⟩, rfl⟩ := hsd
    exact ⟨r, hr, pat, hpat, hmatch, hread, by simp [destFor, hc]⟩
  · have hm : j.task = "cssmin" ∨ j.task = "uglify" := by
      rcases hkind with h | h
      · exact absurd h hc
      · exact h
    simp only [hc, if_false, hm, if_true, List.mem_flatMap, List.mem_map] at hw
    obtain ⟨r, hr, sd, hsd, rfl⟩ := hw
    rw [minifyWrites_eq fs (hmin hc r hr)] at hsd
    simp only [List.mem_map, List.mem_filter, mem_expandPatterns] at hsd
    obtain ⟨s, ⟨⟨pat, hpat, hread, hmatch⟩, _⟩, rfl⟩ := hsd
    exact ⟨r, hr, pat, hpat, hmatch, hread, by simp [destFor, hc]⟩

/-- Every write of a default job is one of the writes listed in the
configuration or a write of a font rule. -/
theorem jobWrites_cases {fs : FS} {j : Job} (hj : j ∈ defaultJobs) {w : Write}
    (hw : w ∈ jobWrites fs j) : w ∈ literalWrites ∨ IsFontWrite w := by
  obtain ⟨r, hr, pat, hpat, hmatch, _, hweq⟩ := mem_jobWrites hj hw
  cases hstar : hasStar pat with
  | false =>
    left
    have hsrc : w.src = pat := globMatch_literal hstar hmatch
    rw [hweq, hsrc]
    unfold literalWrites
    simp only [List.mem_flatMap, List.mem_map, List.mem_filter]
    exact ⟨j, hj, r, hr, pat, ⟨hpat, by simp [hstar]⟩, rfl⟩
  | true =>
    right
    obtain ⟨ht, htg, hfr, hsrc, hdest, hdata, hnostar⟩ :=
      defaultJobs_star j hj r hr pat hpat hstar
    obtain ⟨name, hne, hslash, hpath, hbase⟩ := globMatch_dir_star hdata hnostar hmatch
    have hd : w.dest = fontsDir ++ basename w.src := by
      rw [hweq]
      simp only [destFor, ht, if_true, hdest]
      exact joinPath_dir _ (by decide) (by decide)
    have hrule : w.rule = r := by rw [hweq]
    have htask : w.task = "copy" := by rw [hweq]; exact ht
    have htarget : w.target = "bower" := by rw [hweq]; exact htg
    refine ⟨htask, htarget, hrule ▸ hfr, pat, name, hrule ▸ hsrc, hne, hslash, hpath, ?_, hbase⟩
    rw [hd, String.data_append, hbase]

theorem mem_taggedMappings {fs : FS} {files : Files} {rm : CopyRule × Mapping}
    (h : rm ∈ taggedMappings fs files) :
    rm.1 ∈ files.normalize ∧ rm.2 ∈ ruleMappings fs rm.1 := by
  unfold taggedMappings at h
  simp only [List.mem_flatMap, List.mem_map] at h
  obtain ⟨r, hr, m, hm, rfl⟩ := h
  exact ⟨hr, hm⟩

theorem minifyAll_cons_ok {step : FS → Mapping → FS × Bool} {task target : String}
    {rm : CopyRule × Mapping} {rest : List (CopyRule × Mapping)} {fs : FS}
    (h : (step fs rm.2).2 = true) :
    (minifyAll step task target (rm :: rest) fs).fs
        = (minifyAll step task target rest (step fs rm.2).1).fs
      ∧ (minifyAll step task target (rm :: rest) fs).ok
        = (minifyAll step task target rest (step fs rm.2).1).ok
      ∧ (minifyAll step task target (rm :: rest) fs).writes
        = rm.2.src.map (fun s => ⟨task, target, rm.1, s, rm.2.dest⟩)
          ++ (minifyAll step task target rest (step fs rm.2).1).writes := by
  simp [minifyAll, h]

theorem minifyAll_cons_fail {step : FS → Mapping → FS × Bool} {task target : String}
    {rm : CopyRule × Mapping} {rest : List (CopyRule × Mapping)} {fs : FS}
    (h : (step fs rm.2).2 = false) :
    (minifyAll step task target (rm :: rest) fs).fs = (step fs rm.2).1
      ∧ (minifyAll step task target (rm :: rest) fs).ok = false
      ∧ (minifyAll step task target (rm :: rest) fs).writes = [] := by
  simp [minifyAll, h]

/-- The pairs a minify task goes through are pairs of its mappings. -/
theorem mem_minifyAll_writes {step : FS → Mapping → FS × Bool} {task target : String}
    {L : List (CopyRule × Mapping)} {fs : FS} {w : Write}
    (h : w ∈ (minifyAll step task target L fs).writes) :
    ∃ rm ∈ L, ∃ s ∈ rm.2.src, w = ⟨task, target, rm.1, s, rm.2.dest⟩ := by
  induction L generalizing fs with
  | nil => simp [minifyAll] at h
  | cons rm rest ih =>
    cases hs : (step fs rm.2).2 with
    | false =>
      rw [(minifyAll_cons_fail hs).2.2] at h
      simp at h
    | true =>
      rw [(minifyAll_cons_ok hs).2.2, List.mem_append] at h
      rcases h with h | h
      · obtain ⟨s, hs2, rfl⟩ := List.mem_map.1 h
        exact ⟨rm, List.mem_cons_self _ _, s, hs2, rfl⟩
      · obtain ⟨rm2, hrm2, s, hs2, hw⟩ := ih h
        exact ⟨rm2, List.mem_cons_of_mem _ hrm2, s, hs2, hw⟩

/-- The pairs a job goes through are pairs of the job. -/
theorem runJob_writes_subset {tools : Tools} {fs : FS} {j : Job} {w : Write}
    (h : w ∈ (runJob tools fs j).writes) : w ∈ jobWrites fs j := by
  have hmin : ∀ step : FS → Mapping → FS × Bool,
      (j.task = "cssmin" ∨ j.task = "uglify") → j.task ≠ "copy" →
      w ∈ (minifyAll step j.task j.target (taggedMappings fs j.files) fs).writes →
      w ∈ jobWrites fs j := by
    intro step hm hc hw
    obtain ⟨rm, hrm, s, hs, rfl⟩ := mem_minifyAll_writes hw
    obtain ⟨hr, hmr⟩ := mem_taggedMappings hrm
    unfold jobWrites
    simp only [hc, if_false, hm, if_true, List.mem_flatMap, List.mem_map]
    refine ⟨rm.1, hr, (s, rm.2.dest), ?_, rfl⟩
    unfold minifyWrites
    exact List.mem_flatMap.2 ⟨rm.2, hmr, List.mem_map.2 ⟨s, hs, rfl⟩⟩
  unfold runJob at h
  by_cases hc : j.task = "copy"
  · rw [if_pos hc] at h
    exact h
  · rw [if_neg hc] at h
    by_cases hcss : j.task = "cssmin"
    · rw [if_pos hcss] at h
      exact hmin _ (Or.inl hcss) hc h
    · rw [if_neg hcss] at h
      by_cases hu : j.task = "uglify"
      · rw [if_pos hu] at h
        exact hmin _ (Or.inr hu) hc h
      · rw [if_neg hu] at h
        simp at h

theorem runJobs_cons_ok {tools : Tools} {j : Job} {js : List Job} {fs : FS}
    (h : (runJob tools fs j).ok = true) :
    (runJobs tools (j :: js) fs).fs = (runJobs tools js (runJob tools fs j).fs).fs
      ∧ (runJobs tools (j :: js) fs).status = (runJobs tools js (runJob tools fs j).fs).status
      ∧ (runJobs tools (j :: js) fs).writes
        = (runJob tools fs j).writes ++ (runJobs tools js (runJob tools fs j).fs).writes := by
  simp [runJobs, h]

theorem runJobs_cons_fail {tools : Tools} {j : Job} {js : List Job} {fs : FS}
    (h : (runJob tools fs j).ok = false) :
    (runJobs tools (j :: js) fs).fs = (runJob tools fs j).fs
      ∧ (runJobs tools (j :: js) fs).status = .toolFailed j.task j.target
      ∧ (runJobs tools (j :: js) fs).writes = (runJob tools fs j).writes := by
  simp [runJobs, h]

theorem mem_runJobs_writes {tools : Tools} {jobs : List Job} {fs : FS} {w : Write}
    (hw : w ∈ (runJobs tools jobs fs).writes) : ∃ j ∈ jobs, ∃ fs2, w ∈ jobWrites fs2 j := by
  induction jobs generalizing fs with
  | nil => simp [runJobs] at hw
  | cons j js ih =>
    cases hok : (runJob tools fs j).ok with
    | false =>
      rw [(runJobs_cons_fail hok).2.2] at hw
      exact ⟨j, List.mem_cons_self _ _, fs, runJob_writes_subset hw⟩
    | true =>
      rw [(runJobs_cons_ok hok).2.2, List.mem_append] at hw
      rcases hw with hw | hw
      · exact ⟨j, List.mem_cons_self _ _, fs, runJob_writes_subset hw⟩
      · obtain ⟨j2, hj2, fs2, h2⟩ := ih hw
        exact ⟨j2, List.mem_cons_of_mem _ hj2, fs2, h2⟩

theorem taskJobs_default : taskJobs "default" = some defaultJobs := by
  decide

/-- The run of the default task: nothing when the Gruntfile does not load, the
run of the default jobs when it does. -/
theorem runTask_default (tools : Tools) (fs : FS) :
    (loadGruntfile tools fs = false ∧ runTask tools "default" fs = ⟨fs, .loadFailed, []⟩)
      ∨ (loadGruntfile tools fs = true
        ∧ runTask tools "default" fs = runJobs tools defaultJobs fs) := by
  unfold runTask
  rw [taskJobs_default]
  cases h : loadGruntfile tools fs with
  | false => left; simp
  | true => right; simp

/-- Every pair a run of the default task goes through is one of the pairs listed
in the configuration or a pair of a font rule. -/
theorem taskTrace_cases {tools : Tools} {fs : FS} {w : Write}
    (hw : w ∈ taskTrace tools "default" fs) : w ∈ literalWrites ∨ IsFontWrite w := by
  unfold taskTrace at hw
  rcases runTask_default tools fs with ⟨_, h⟩ | ⟨_, h⟩
  · rw [h] at hw
    simp at hw
  · rw [h] at hw
    obtain ⟨j, hj, fs2, h2⟩ := mem_runJobs_writes hw
    exact jobWrites_cases hj h2

/-! ## Output paths against each other and against the sources -/

theorem literalWrites_dest_inj :
    ∀ a ∈ literalWrites, ∀ b ∈ literalWrites, a.dest = b.dest → a = b := by
  decide

theorem literalWrites_dest_ne_src :
    ∀ a ∈ literalWrites, ∀ b ∈ literalWrites, a.dest ≠ b.src := by
  decide

theorem literalWrites_facts :
    ∀ a ∈ literalWrites,
      fontsDir.data.isPrefixOf a.dest.data = false
        ∧ fontsDir.data.isPrefixOf a.src.data = false
        ∧ a.dest.data.head? = some 'o'
        ∧ underStatic a.dest = true
        ∧ (a.task = "copy" → (packageOf a.src).isSome = true)
        ∧ ¬ a.rule ∈ fontRules := by
  decide

theorem fontRules_facts :
    ∀ r ∈ fontRules, ∀ pat ∈ r.src,
      (fontDirOf pat).head? = some 'b'
        ∧ (packageOfSegs (splitSlash (fontDirOf pat))).isSome = true := by
  decide

theorem packageOfSegs_append {segs : List (List Char)} (more : List (List Char))
    (h : (packageOfSegs segs).isSome = true) : (packageOfSegs (segs ++ more)).isSome = true := by
  match segs, h with
  | root :: pkg :: x :: rest, h => simpa [packageOfSegs] using h

theorem IsFontWrite.dest_starts {w : Write} (h : IsFontWrite w) :
    fontsDir.data.isPrefixOf w.dest.data = true := by
  obtain ⟨_, _, _, pat, name, _, _, _, _, hd, _⟩ := h
  rw [ List.isPrefixOf_iff_prefix, hd]
  exact List.prefix_append _ _

theorem IsFontWrite.dest_head {w : Write} (h : IsFontWrite w) :
    w.dest.data.head? = some 'o' := by
  obtain ⟨_, _, _, pat, name, _, _, _, _, hd, _⟩ := h
  rw [hd]
  rfl

theorem IsFontWrite.src_head {w : Write} (h : IsFontWrite w) :
    w.src.data.head? = some 'b' := by
  obtain ⟨_, _, hr, pat, name, hsrc, _, _, hs, _, _⟩ := h
  have hb := (fontRules_facts w.rule hr pat (by rw [hsrc]; exact List.mem_singleton_self _)).1
  rw [hs]
  cases hd : fontDirOf pat with
  | nil => rw [hd] at hb; simp at hb
  | cons c cs => rw [hd] at hb; simpa using hb

theorem IsFontWrite.package {w : Write} (h : IsFontWrite w) :
    (packageOf w.src).isSome = true := by
  obtain ⟨_, _, hr, pat, name, hsrc, _, _, hs, _, _⟩ := h
  have hb := (fontRules_facts w.rule hr pat (by rw [hsrc]; exact List.mem_singleton_self _)).2
  unfold packageOf
  rw [hs, splitSlash_append_slash]
  exact packageOfSegs_append _ hb

theorem IsFontWrite.underStatic {w : Write} (h : IsFontWrite w) :
    underStatic w.dest = true := by
  have hp := h.dest_starts
  have hf : (staticRoot ++ "fonts/").data = fontsDir.data := by decide
  simp only [Gruntfile.underStatic, staticDirs, List.any_cons, hf, hp, Bool.true_or]

/-- No output path is a source path. -/
theorem dest_ne_src {w w2 : Write} (h : w ∈ literalWrites ∨ IsFontWrite w)
    (h2 : w2 ∈ literalWrites ∨ IsFontWrite w2) : w.dest ≠ w2.src := by
  intro e
  rcases h2 with h2 | h2
  · rcases h with h | h
    · exact literalWrites_dest_ne_src w h w2 h2 e
    · have hp := h.dest_starts
      rw [e, (literalWrites_facts w2 h2).2.1] at hp
      exact Bool.noConfusion hp
  · have hb := h2.src_head
    have ho : w.dest.data.head? = some 'o' := by
      rcases h with h | h
      · exact (literalWrites_facts w h).2.2.1
      · exact h.dest_head
    rw [e, hb] at ho
    exact absurd ho (by decide)

/-- Two writes to the same output path are the same write, or come from the two
font rules, for two sources of the same base name. -/
theorem dest_inj {w w2 : Write} (h : w ∈ literalWrites ∨ IsFontWrite w)
    (h2 : w2 ∈ literalWrites ∨ IsFontWrite w2) (e : w.dest = w2.dest) :
    w = w2 ∨ (w.rule ≠ w2.rule ∧ w.rule ∈ fontRules ∧ w2.rule ∈ fontRules
      ∧ basename w.src = basename w2.src) := by
  rcases h with h | h
  · rcases h2 with h2 | h2
    · exact Or.inl (literalWrites_dest_inj w h w2 h2 e)
    · have hp := h2.dest_starts
      rw [← e, (literalWrites_facts w h).1] at hp
      exact Bool.noConfusion hp
  · rcases h2 with h2 | h2
    · have hp := h.dest_starts
      rw [e, (literalWrites_facts w2 h2).1] at hp
      exact Bool.noConfusion hp
    · obtain ⟨ht, htg, hr, pat, name, hsrc, _, _, hs, hd, hb⟩ := h
      obtain ⟨ht2, htg2, hr2, pat2, name2, hsrc2, _, _, hs2, hd2, hb2⟩ := h2
      have hname : name = name2 := by
        have : fontsDir.data ++ name = fontsDir.data ++ name2 := by rw [← hd, ← hd2, e]
        exact List.append_cancel_left this
      subst hname
      by_cases hrule : w.rule = w2.rule
      · left
        have hpat : pat = pat2 := by
          rw [hrule, hsrc2] at hsrc
          exact (List.cons.inj hsrc).1.symm
        subst hpat
        have hsame : w.src = w2.src := String.ext (by rw [hs, hs2])
        cases w
        cases w2
        simp only [Write.mk.injEq]
        simp only at ht ht2 htg htg2 hrule hsame e
        exact ⟨ht.trans ht2.symm, htg.trans htg2.symm, hrule, hsame, e⟩
      · right
        exact ⟨hrule, hr, hr2, String.ext (by rw [hb, hb2])⟩

/-! ## What a run leaves unchanged -/

theorem read_write (fs : FS) (p d c : String) :
    (fs.write d c).read p = if p = d then some c else fs.read p := by
  unfold FS.write FS.read
  by_cases h : p = d
  · subst h; simp [List.lookup_cons]
  · have hb : (p == d) = false := by simpa using h
    simp [List.lookup_cons, hb, h]

theorem copyFile_frame {fs : FS} {sd : String × String} {p : String} (h : sd.2 ≠ p) :
    (copyFile fs sd).read p = fs.read p := by
  unfold copyFile
  split
  · rw [read_write, if_neg (Ne.symm h)]
  · rfl

theorem foldl_copyFile_frame {L : List (String × String)} {fs : FS} {p : String}
    (h : ∀ sd ∈ L, sd.2 ≠ p) : (L.foldl copyFile fs).read p = fs.read p := by
  induction L generalizing fs with
  | nil => rfl
  | cons sd L ih =>
    rw [List.foldl_cons, ih (fun x hx => h x (List.mem_cons_of_mem _ hx)),
      copyFile_frame (h sd (List.mem_cons_self _ _))]

theorem minifyMapping_frame {tool : Minifier} {opts : Options} {we : Bool} {fs : FS}
    {m : Mapping} {p : String} (h : m.dest ≠ p) :
    (minifyMapping tool opts we fs m).1.read p = fs.read p := by
  unfold minifyMapping
  split
  · cases we with
    | false => rfl
    | true => simp only [if_true]; rw [read_write, if_neg (Ne.symm h)]
  · split
    · simp only; rw [read_write, if_neg (Ne.symm h)]
    · rfl

theorem minifyAll_frame {tool : Minifier} {opts : Options} {we : Bool} {task target : String}
    {L : List (CopyRule × Mapping)} {fs : FS} {p : String}
    (h : ∀ rm ∈ L, rm.2.dest ≠ p) :
    (minifyAll (minifyMapping tool opts we) task target L fs).fs.read p = fs.read p := by
  induction L generalizing fs with
  | nil => rfl
  | cons rm rest ih =>
    have h1 : (minifyMapping tool opts we fs rm.2).1.read p = fs.read p :=
      minifyMapping_frame (h rm (List.mem_cons_self _ _))
    cases hs : (minifyMapping tool opts we fs rm.2).2 with
    | false => rw [(minifyAll_cons_fail hs).1, h1]
    | true =>
      rw [(minifyAll_cons_ok hs).1, ih (fun x hx => h x (List.mem_cons_of_mem _ hx)), h1]

theorem defaultJobs_minify_dest :
    ∀ j ∈ defaultJobs, j.task ≠ "copy" → ∀ r ∈ j.files.normalize,
      ∃ w ∈ literalWrites, w.dest = r.dest ∧ w.task = j.task ∧ w.target = j.target := by
  decide

theorem ruleMappings_dest {fs : FS} {r : CopyRule} (he : r.expand = false) {m : Mapping}
    (hm : m ∈ ruleMappings fs r) : m.dest = r.dest := by
  unfold ruleMappings at hm
  simp only [he, Bool.false_eq_true, if_false, List.mem_singleton] at hm
  rw [hm]

/-- A default job changes only output paths of its own pairs, listed or of a
font rule. -/
theorem runJob_frame {tools : Tools} {j : Job} (hj : j ∈ defaultJobs) {fs : FS} {p : String}
    (h : ∀ w, (w ∈ literalWrites ∨ IsFontWrite w) → w.task = j.task → w.target = j.target →
      w.dest ≠ p) :
    (runJob tools fs j).fs.read p = fs.read p := by
  obtain ⟨hkind, hcopy, hmin⟩ := defaultJobs_shape j hj
  have hmap : j.task ≠ "copy" → ∀ rm ∈ taggedMappings fs j.files, rm.2.dest ≠ p := by
    intro hc rm hrm
    obtain ⟨hr, hmr⟩ := mem_taggedMappings hrm
    rw [ruleMappings_dest (hmin hc rm.1 hr) hmr]
    obtain ⟨w, hw, hwd, hwt, hwtg⟩ := defaultJobs_minify_dest j hj hc rm.1 hr
    rw [← hwd]
    exact h w (Or.inl hw) hwt hwtg
  unfold runJob
  by_cases hc : j.task = "copy"
  · rw [if_pos hc]
    show (copyTask j.files fs).read p = fs.read p
    unfold copyTask
    apply foldl_copyFile_frame
    intro sd hsd
    obtain ⟨r, hr, hsr⟩ := List.mem_flatMap.1 hsd
    have hw : (⟨j.task, j.target, r, sd.1, sd.2⟩ : Write) ∈ jobWrites fs j := by
      unfold jobWrites
      simp only [hc, if_true, List.mem_flatMap, List.mem_map]
      exact ⟨r, hr, sd, hsr, rfl⟩
    exact h _ (jobWrites_cases hj hw) rfl rfl
  · rw [if_neg hc]
    by_cases hcss : j.task = "cssmin"
    · rw [if_pos hcss]
      exact minifyAll_frame (hmap hc)
    · rw [if_neg hcss]
      by_cases hu : j.task = "uglify"
      · rw [if_pos hu]
        exact minifyAll_frame (hmap hc)
      · rw [if_neg hu]

/-- A run of default jobs, to its end or to an abort, changes only output paths
of pairs of these jobs. -/
theorem runJobs_frame {tools : Tools} {jobs : List Job} {fs : FS} {p : String}
    (hjobs : ∀ j ∈ jobs, j ∈ defaultJobs)
    (h : ∀ j ∈ jobs, ∀ w, (w ∈ literalWrites ∨ IsFontWrite w) → w.task = j.task →
      w.target = j.target → w.dest ≠ p) :
    (runJobs tools jobs fs).fs.read p = fs.read p := by
  induction jobs generalizing fs with
  | nil => rfl
  | cons j js ih =>
    have h1 : (runJob tools fs j).fs.read p = fs.read p :=
      runJob_frame (hjobs j (List.mem_cons_self _ _)) (h j (List.mem_cons_self _ _))
    cases hok : (runJob tools fs j).ok with
    | false => rw [(runJobs_cons_fail hok).1, h1]
    | true =>
      rw [(runJobs_cons_ok hok).1,
        ih (fun x hx => hjobs x (List.mem_cons_of_mem _ hx))
          (fun x hx => h x (List.mem_cons_of_mem _ hx)), h1]

/-- A run of the default task, however it ends, changes only output paths of
pairs listed in the configuration or of a font rule. -/
theorem runTask_frame {tools : Tools} {fs : FS} {p : String}
    (h : ∀ w, (w ∈ literalWrites ∨ IsFontWrite w) → w.dest ≠ p) :
    (runTask tools "default" fs).fs.read p = fs.read p := by
  rcases runTask_default tools fs with ⟨_, e⟩ | ⟨_, e⟩
  · rw [e]
  · rw [e]
    exact runJobs_frame (fun _ hx => hx) (fun _ _ w hw _ _ => h w hw)

/-! ## What a run leaves at the listed destinations -/

theorem eq_singleton_of_nodup {α : Type} {l : List α} {a : α} (hn : l.Nodup)
    (hall : ∀ x ∈ l, x = a) (hmem : a ∈ l) : l = [a] := by
  cases l with
  | nil => simp at hmem
  | cons x t =>
    have hx : x = a := hall x (List.mem_cons_self _ _)
    subst hx
    cases t with
    | nil => rfl
    | cons y t2 =>
      have hy : y = x := hall y (by simp)
      subst hy
      simp at hn

theorem expandPatterns_singleton {fs : FS} {s : String} (hstar : hasStar s = false)
    (hself : globMatch s s = true) (hex : (fs.read s).isSome = true) :
    expandPatterns fs [s] = [s] := by
  have hl : fs.paths.filter (globMatch s) = [s] := by
    apply eq_singleton_of_nodup
    · exact List.Nodup.filter _ (List.nodup_dedup _)
    · intro x hx
      exact globMatch_literal hstar (List.mem_filter.1 hx).2
    · exact List.mem_filter.2 ⟨mem_paths.2 hex, hself⟩
  unfold expandPatterns
  simp [List.flatMap_cons, hl]

theorem foldl_copyFile_value {L : List (String × String)} {fs : FS} {s d c : String}
    (hs : ∀ p ∈ L, p.2 ≠ s) (hd : ∀ p ∈ L, p.2 = d → p.1 = s)
    (hc : fs.read s = some c) (h : (s, d) ∈ L ∨ fs.read d = some c) :
    (L.foldl copyFile fs).read d = some c := by
  induction L generalizing fs with
  | nil =>
    rcases h with h | h
    · simp at h
    · exact h
  | cons p L ih =>
    rw [List.foldl_cons]
    have hs2 : ∀ q ∈ L, q.2 ≠ s := fun q hq => hs q (List.mem_cons_of_mem _ hq)
    have hd2 : ∀ q ∈ L, q.2 = d → q.1 = s := fun q hq => hd q (List.mem_cons_of_mem _ hq)
    have hc2 : (copyFile fs p).read s = some c := by
      rw [copyFile_frame (hs p (List.mem_cons_self _ _))]; exact hc
    apply ih hs2 hd2 hc2
    by_cases hpd : p.2 = d
    · right
      have hp1 : p.1 = s := hd p (List.mem_cons_self _ _) hpd
      unfold copyFile
      rw [hp1, hc]
      simp only
      rw [read_write, hpd, if_pos rfl]
    · rcases h with h | h
      · rcases List.mem_cons.1 h with h | h
        · exact absurd (by rw [← h]) hpd
        · exact Or.inl h
      · right
        rw [copyFile_frame hpd]; exact h

/-- What a minify task that goes to its end leaves at a destination all of whose
mappings have the same sources: the text its minifier returned on these
sources, which then read as before. -/
theorem minifyAll_value {tool : Minifier} {opts : Options} {we : Bool} {task target : String}
    {L : List (CopyRule × Mapping)} {fs fs0 : FS} {src : List String} {d : String}
    (hsrc : ∀ rm ∈ L, ∀ s ∈ src, rm.2.dest ≠ s)
    (hd : ∀ rm ∈ L, rm.2.dest = d → rm.2.src = src) (hne : src ≠ [])
    (hread : ∀ s ∈ src, fs.read s = fs0.read s)
    (h : (∃ rm ∈ L, rm.2.dest = d) ∨ ∃ (at0 : FS) (c : String),
      tool opts at0 src = some c ∧ (∀ s ∈ src, at0.read s = fs0.read s) ∧ fs.read d = some c)
    (hok : (minifyAll (minifyMapping tool opts we) task target L fs).ok = true) :
    ∃ (at0 : FS) (c : String), tool opts at0 src = some c
      ∧ (∀ s ∈ src, at0.read s = fs0.read s)
      ∧ (minifyAll (minifyMapping tool opts we) task target L fs).fs.read d = some c := by
  induction L generalizing fs with
  | nil =>
    rcases h with ⟨rm, hrm, _⟩ | h
    · simp at hrm
    · exact h
  | cons rm rest ih =>
    cases hs : (minifyMapping tool opts we fs rm.2).2 with
    | false =>
      rw [(minifyAll_cons_fail hs).2.1] at hok
      exact Bool.noConfusion hok
    | true =>
      rw [(minifyAll_cons_ok hs).2.1] at hok
      rw [(minifyAll_cons_ok hs).1]
      have hread2 : ∀ s ∈ src, (minifyMapping tool opts we fs rm.2).1.read s = fs0.read s := by
        intro s hs2
        rw [minifyMapping_frame (hsrc rm (List.mem_cons_self _ _) s hs2)]
        exact hread s hs2
      apply ih (fun x hx => hsrc x (List.mem_cons_of_mem _ hx))
        (fun x hx => hd x (List.mem_cons_of_mem _ hx)) hread2 _ hok
      by_cases hmd : rm.2.dest = d
      · right
        have hms : rm.2.src = src := hd rm (List.mem_cons_self _ _) hmd
        have hemp : rm.2.src.isEmpty = false := by
          rw [hms]
          cases src with
          | nil => exact absurd rfl hne
          | cons a l => rfl
        cases htool : tool opts fs src with
        | none =>
          have : (minifyMapping tool opts we fs rm.2).2 = false := by
            simp [minifyMapping, hms, htool, hne]
          rw [this] at hs
          exact Bool.noConfusion hs
        | some out =>
          refine ⟨fs, out, htool, hread, ?_⟩
          have : (minifyMapping tool opts we fs rm.2).1 = fs.write rm.2.dest out := by
            simp [minifyMapping, hms, htool, hne]
          rw [this, read_write, hmd, if_pos rfl]
      · rcases h with ⟨m2, hm2, hm2d⟩ | ⟨at0, c, h1, h2, h3⟩
        · rcases List.mem_cons.1 hm2 with e | e
          · exact absurd (e ▸ hm2d) hmd
          · exact Or.inl ⟨m2, e, hm2d⟩
        · right
          refine ⟨at0, c, h1, h2, ?_⟩
          rw [minifyMapping_frame hmd]
          exact h3

/-- The listed writes of a default job, against the configuration. -/
theorem literalWrites_of_job :
    ∀ j ∈ defaultJobs, ∀ a ∈ literalWrites, a.task = j.task → a.target = j.target →
      a.rule ∈ j.files.normalize ∧ a.src ∈ a.rule.src ∧ hasStar a.src = false
        ∧ a.dest = destFor j a.rule a.src ∧ globMatch a.src a.src = true
        ∧ a.rule.filter = none ∧ (j.task ≠ "copy" → a.rule.src = [a.src]) := by
  decide

theorem defaultJobs_minify :
    ∀ j ∈ defaultJobs, j.task ≠ "copy" → ∀ r ∈ j.files.normalize, ∀ r2 ∈ j.files.normalize,
      (r.dest = r2.dest → r = r2) ∧ (∀ s ∈ r2.src, r.dest ≠ s) := by
  decide

theorem defaultJobs_unique :
    ∀ j ∈ defaultJobs, ∀ j2 ∈ defaultJobs, j.task = j2.task → j.target = j2.target → j = j2 := by
  decide

theorem literalWrites_sources :
    ∀ a ∈ literalWrites, ∀ s ∈ a.rule.src, ∃ b ∈ literalWrites, b.src = s := by
  decide

theorem passesFilter_none (fs : FS) (p : String) : passesFilter fs none p = true := rfl

theorem filter_passes_none (fs : FS) (l : List String) :
    l.filter (passesFilter fs none) = l := by
  apply List.filter_eq_self.2
  intro a _
  rfl

/-- What the copy job leaves at the output of one of its listed pairs whose source
is present: the content of the source. -/
theorem runJob_copy_value {tools : Tools} {j : Job} (hj : j ∈ defaultJobs) {a : Write}
    (ha : a ∈ literalWrites) (ht : a.task = j.task) (htg : a.target = j.target)
    (hc : j.task = "copy") {fs : FS} (hex : (fs.read a.src).isSome = true) :
    (runJob tools fs j).ok = true ∧ (runJob tools fs j).fs.read a.dest = fs.read a.src := by
  obtain ⟨hrule, hsrc, hstar, hdest, hself, hfilter, hsingle⟩ :=
    literalWrites_of_job j hj a ha ht htg
  obtain ⟨hkind, hcopy, hmin⟩ := defaultJobs_shape j hj
  obtain ⟨he, hf, hne, hsl⟩ := hcopy hc a.rule hrule
  obtain ⟨c, hcval⟩ := Option.isSome_iff_exists.1 hex
  have hd : a.dest = joinPath a.rule.dest (basename a.src) := by
    rw [hdest]; simp [destFor, hc]
  have hwrite : ∀ sd ∈ j.files.normalize.flatMap (copyWrites fs),
      ∃ w ∈ jobWrites fs j, w.src = sd.1 ∧ w.dest = sd.2 := by
    intro sd hsd
    obtain ⟨r, hr, hsr⟩ := List.mem_flatMap.1 hsd
    refine ⟨⟨j.task, j.target, r, sd.1, sd.2⟩, ?_, rfl, rfl⟩
    unfold jobWrites
    simp only [hc, if_true, List.mem_flatMap, List.mem_map]
    exact ⟨r, hr, sd, hsr, rfl⟩
  have hval : (copyTask j.files fs).read a.dest = some c := by
    unfold copyTask
    apply foldl_copyFile_value (s := a.src)
    · intro sd hsd
      obtain ⟨w, hw, _, hwd⟩ := hwrite sd hsd
      rw [← hwd]
      exact dest_ne_src (jobWrites_cases hj hw) (Or.inl ha)
    · intro sd hsd hsdd
      obtain ⟨w, hw, hws, hwd⟩ := hwrite sd hsd
      rcases dest_inj (jobWrites_cases hj hw) (Or.inl ha) (hwd.trans hsdd) with e | e
      · rw [← hws, e]
      · exact absurd e.2.2.1 (literalWrites_facts a ha).2.2.2.2.2
    · exact hcval
    · left
      apply List.mem_flatMap.2
      refine ⟨a.rule, hrule, ?_⟩
      rw [copyWrites_eq fs he hf, hfilter, filter_passes_none, hd]
      apply List.mem_map.2
      exact ⟨a.src, mem_expandPatterns.2 ⟨a.src, hsrc, hex, hself⟩, rfl⟩
  unfold runJob
  rw [if_pos hc]
  exact ⟨rfl, by rw [hcval]; exact hval⟩

/-- What a minify job that goes to its end leaves at the output of one of its
listed pairs whose sources are present: the text its minifier returned on
the sources of the rule, which then read as when the job started. -/
theorem runJob_minify_value {tools : Tools} {j : Job} (hj : j ∈ defaultJobs) {a : Write}
    (ha : a ∈ literalWrites) (ht : a.task = j.task) (htg : a.target = j.target)
    (hc : j.task ≠ "copy") {fs : FS} (hex : ∀ s ∈ a.rule.src, (fs.read s).isSome = true)
    (hok : (runJob tools fs j).ok = true) :
    (j.task = "cssmin" → ∃ (at0 : FS) (c : String),
        tools.cssmin j.options at0 a.rule.src = some c
          ∧ (∀ s ∈ a.rule.src, at0.read s = fs.read s)
          ∧ (runJob tools fs j).fs.read a.dest = some c)
      ∧ (j.task = "uglify" → ∃ (at0 : FS) (c : String),
        tools.uglify j.options at0 a.rule.src = some c
          ∧ (∀ s ∈ a.rule.src, at0.read s = fs.read s)
          ∧ (runJob tools fs j).fs.read a.dest = some c) := by
  obtain ⟨hrule, hsrc, hstar, hdest, hself, hfilter, hsingle⟩ :=
    literalWrites_of_job j hj a ha ht htg
  obtain ⟨hkind, hcopy, hmin⟩ := defaultJobs_shape j hj
  have hsingle2 : a.rule.src = [a.src] := hsingle hc
  have hexp : expandPatterns fs a.rule.src = a.rule.src := by
    rw [hsingle2]
    exact expandPatterns_singleton hstar hself (hex a.src hsrc)
  have hd : a.dest = a.rule.dest := by
    rw [hdest]; simp [destFor, hc]
  have hval : ∀ (tool : Minifier) (we : Bool),
      (minifyAll (minifyMapping tool j.options we) j.task j.target
        (taggedMappings fs j.files) fs).ok = true →
      ∃ (at0 : FS) (c : String), tool j.options at0 a.rule.src = some c
        ∧ (∀ s ∈ a.rule.src, at0.read s = fs.read s)
        ∧ (minifyAll (minifyMapping tool j.options we) j.task j.target
            (taggedMappings fs j.files) fs).fs.read a.dest = some c := by
    intro tool we hok2
    apply minifyAll_value _ _ _ (fun _ _ => rfl) _ hok2
    · intro rm hrm s hs
      obtain ⟨hr, hmr⟩ := mem_taggedMappings hrm
      rw [ruleMappings_dest (hmin hc rm.1 hr) hmr]
      exact (defaultJobs_minify j hj hc rm.1 hr a.rule hrule).2 s hs
    · intro rm hrm hmd
      obtain ⟨hr, hmr⟩ := mem_taggedMappings hrm
      have hrd : rm.1.dest = a.rule.dest := by
        rw [← hd, ← hmd, ruleMappings_dest (hmin hc rm.1 hr) hmr]
      have hra : rm.1 = a.rule := (defaultJobs_minify j hj hc rm.1 hr a.rule hrule).1 hrd
      rw [hra] at hmr
      unfold ruleMappings at hmr
      simp only [hmin hc a.rule hrule, Bool.false_eq_true, if_false, List.mem_singleton,
        hfilter, filter_passes_none, hexp] at hmr
      rw [hmr]
    · rw [hsingle2]; simp
    · left
      refine ⟨(a.rule, ⟨a.rule.src, a.rule.dest, false⟩), ?_, hd.symm⟩
      unfold taggedMappings
      simp only [List.mem_flatMap, List.mem_map]
      refine ⟨a.rule, hrule, ⟨a.rule.src, a.rule.dest, false⟩, ?_, rfl⟩
      unfold ruleMappings
      simp only [hmin hc a.rule hrule, Bool.false_eq_true, if_false, List.mem_singleton,
        hfilter, filter_passes_none, hexp]
  constructor
  · intro hcss
    have e : runJob tools fs j
        = minifyAll (minifyMapping tools.cssmin j.options true) j.task j.target
            (taggedMappings fs j.files) fs := by
      unfold runJob
      rw [if_neg hc, if_pos hcss]
    rw [e] at hok ⊢
    exact hval tools.cssmin true hok
  · intro hu
    have hcss : j.task ≠ "cssmin" := by rw [hu]; decide
    have e : runJob tools fs j
        = minifyAll (minifyMapping tools.uglify j.options false) j.task j.target
            (taggedMappings fs j.files) fs := by
      unfold runJob
      rw [if_neg hc, if_neg hcss, if_pos hu]
    rw [e] at hok ⊢
    exact hval tools.uglify false hok

/-- What a default job that goes on leaves at the output of one of its listed
pairs whose sources are present. -/
theorem runJob_value {tools : Tools} {j : Job} (hj : j ∈ defaultJobs) {a : Write}
    (ha : a ∈ literalWrites) (ht : a.task = j.task) (htg : a.target = j.target) {fs : FS}
    (hex : ∀ s ∈ a.rule.src, (fs.read s).isSome = true)
    (hok : (runJob tools fs j).ok = true) :
    Produced tools j a fs ((runJob tools fs j).fs.read a.dest) := by
  have hsrc : a.src ∈ a.rule.src := (literalWrites_of_job j hj a ha ht htg).2.1
  by_cases hc : j.task = "copy"
  · refine ⟨fun _ => (runJob_copy_value hj ha ht htg hc (hex a.src hsrc)).2, ?_, ?_⟩
    · intro h; rw [hc] at h; exact absurd h (by decide)
    · intro h; rw [hc] at h; exact absurd h (by decide)
  · exact ⟨fun h => absurd h hc, runJob_minify_value hj ha ht htg hc hex hok⟩

theorem Produced.congr {tools : Tools} {j : Job} {a : Write} (hsrc : a.src ∈ a.rule.src)
    {fs fs0 : FS} {v : Option String} (h : ∀ s ∈ a.rule.src, fs.read s = fs0.read s)
    (hp : Produced tools j a fs v) : Produced tools j a fs0 v := by
  obtain ⟨h1, h2, h3⟩ := hp
  refine ⟨fun hc => ?_, fun hc => ?_, fun hc => ?_⟩
  · rw [h1 hc, h a.src hsrc]
  · obtain ⟨at0, c, e1, e2, e3⟩ := h2 hc
    exact ⟨at0, c, e1, fun s hs => (e2 s hs).trans (h s hs), e3⟩
  · obtain ⟨at0, c, e1, e2, e3⟩ := h3 hc
    exact ⟨at0, c, e1, fun s hs => (e2 s hs).trans (h s hs), e3⟩

/-- No default job other than the job of a listed pair writes the output of the
pair. -/
theorem other_job_dest_ne {j ja : Job} (hj : j ∈ defaultJobs) (hja : ja ∈ defaultJobs)
    (hne : j ≠ ja) {a : Write} (ha : a ∈ literalWrites) (ht : a.task = ja.task)
    (htg : a.target = ja.target) :
    ∀ w, (w ∈ literalWrites ∨ IsFontWrite w) → w.task = j.task → w.target = j.target →
      w.dest ≠ a.dest := by
  intro w hw hwt hwtg e
  rcases dest_inj hw (Or.inl ha) e with e2 | e2
  · have h1 : j.task = ja.task := by rw [← ht, ← e2, hwt]
    have h2 : j.target = ja.target := by rw [← htg, ← e2, hwtg]
    exact hne (defaultJobs_unique j hj ja hja h1 h2)
  · exact absurd e2.2.2.1 (literalWrites_facts a ha).2.2.2.2.2

/-- No default job writes a source of the rule of a listed pair. -/
theorem job_dest_ne_source {a : Write} (ha : a ∈ literalWrites) {s : String}
    (hs : s ∈ a.rule.src) : ∀ w, (w ∈ literalWrites ∨ IsFontWrite w) → w.dest ≠ s := by
  intro w hw
  obtain ⟨b, hb, hbs⟩ := literalWrites_sources a ha s hs
  rw [← hbs]
  exact dest_ne_src hw (Or.inl hb)

/-- What a run of default jobs that goes to its end leaves at the output of a
listed pair: what the job of the pair produces from the sources as they
were before the run. -/
theorem runJobs_value {tools : Tools} {ja : Job} (hja : ja ∈ defaultJobs) {a : Write}
    (ha : a ∈ literalWrites) (ht : a.task = ja.task) (htg : a.target = ja.target)
    {fs0 : FS} (hex : ∀ s ∈ a.rule.src, (fs0.read s).isSome = true)
    (jobs : List Job) (hjobs : ∀ j ∈ jobs, j ∈ defaultJobs) (fs : FS)
    (hread : ∀ s ∈ a.rule.src, fs.read s = fs0.read s)
    (h : ja ∈ jobs ∨ Produced tools ja a fs0 (fs.read a.dest))
    (hdone : (runJobs tools jobs fs).status = .done) :
    Produced tools ja a fs0 ((runJobs tools jobs fs).fs.read a.dest) := by
  have hsrc : a.src ∈ a.rule.src := (literalWrites_of_job ja hja a ha ht htg).2.1
  induction jobs generalizing fs with
  | nil =>
    rcases h with h | h
    · simp at h
    · exact h
  | cons j js ih =>
    have hj : j ∈ defaultJobs := hjobs j (List.mem_cons_self _ _)
    cases hok : (runJob tools fs j).ok with
    | false =>
      rw [(runJobs_cons_fail hok).2.1] at hdone
      exact Status.noConfusion hdone
    | true =>
      rw [(runJobs_cons_ok hok).2.1] at hdone
      rw [(runJobs_cons_ok hok).1]
      have hread2 : ∀ s ∈ a.rule.src, (runJob tools fs j).fs.read s = fs0.read s := by
        intro s hs
        rw [← hread s hs]
        exact runJob_frame hj (fun w hw _ _ => job_dest_ne_source ha hs w hw)
      apply ih (fun x hx => hjobs x (List.mem_cons_of_mem _ hx)) _ hread2 _ hdone
      by_cases hjj : j = ja
      · right
        subst hjj
        have hex2 : ∀ s ∈ a.rule.src, (fs.read s).isSome = true := by
          intro s hs; rw [hread s hs]; exact hex s hs
        exact (runJob_value hj ha ht htg hex2 hok).congr hsrc hread
      · rcases h with h | h
        · rcases List.mem_cons.1 h with e | e
          · exact absurd e.symm hjj
          · exact Or.inl e
        · right
          rw [runJob_frame hj (other_job_dest_ne hj hja hjj ha ht htg)]
          exact h

theorem literalWrites_job :
    ∀ a ∈ literalWrites, ∃ j ∈ defaultJobs, a.task = j.task ∧ a.target = j.target := by
  decide

theorem literalWrites_rule_sources :
    ∀ a ∈ literalWrites, ∀ s ∈ a.rule.src, s ∈ referencedSources := by
  decide

theorem defaultJobs_copy_first :
    ∀ j ∈ defaultJobs, j.task = "copy" →
      defaultJobs.head? = some j ∧ ∀ j2 ∈ defaultJobs.tail, j2 ∈ defaultJobs ∧ j2 ≠ j := by
  decide

/-- Once the Gruntfile has loaded, a run of the default task leaves at the output
of a listed pair of the copy job the content of its source, however the run
ends. -/
theorem runTask_copy_value {tools : Tools} {fs : FS} {a : Write} (ha : a ∈ literalWrites)
    (hc : a.task = "copy") (hex : (fs.read a.src).isSome = true)
    (hload : (runTask tools "default" fs).status ≠ .loadFailed) :
    (runTask tools "default" fs).fs.read a.dest = fs.read a.src := by
  rcases runTask_default tools fs with ⟨_, e⟩ | ⟨_, e⟩
  · rw [e] at hload
    exact absurd rfl hload
  · rw [e]
    obtain ⟨j, hj, ht, htg⟩ := literalWrites_job a ha
    have hjc : j.task = "copy" := by rw [← ht]; exact hc
    obtain ⟨hhead, htail⟩ := defaultJobs_copy_first j hj hjc
    cases hD : defaultJobs with
    | nil => rw [hD] at hhead; simp at hhead
    | cons j0 rest =>
      have htail2 : ∀ j2 ∈ rest, j2 ∈ defaultJobs ∧ j2 ≠ j := by
        intro x hx
        apply htail
        rw [hD]
        exact hx
      rw [hD] at hhead
      have hj0 : j0 = j := by simpa using hhead
      subst hj0
      have hrun : (runJob tools fs j0).ok = true
          ∧ (runJob tools fs j0).fs.read a.dest = fs.read a.src :=
        runJob_copy_value hj ha ht htg hjc hex
      rw [(runJobs_cons_ok hrun.1).1, ← hrun.2]
      apply runJobs_frame
      · intro x hx
        exact (htail2 x hx).1
      · intro x hx
        exact other_job_dest_ne (htail2 x hx).1 hj (htail2 x hx).2 ha ht htg

theorem minifyAll_ok_of_total {step : FS → Mapping → FS × Bool} {task target : String}
    (hstep : ∀ fs m, (step fs m).2 = true) (L : List (CopyRule × Mapping)) (fs : FS) :
    (minifyAll step task target L fs).ok = true := by
  induction L generalizing fs with
  | nil => rfl
  | cons rm rest ih => rw [(minifyAll_cons_ok (hstep fs rm.2)).2.1]; exact ih _

theorem minifyMapping_ok_of_total {tool : Minifier} (htool : ∀ o f s, (tool o f s).isSome = true)
    (opts : Options) (we : Bool) (fs : FS) (m : Mapping) :
    (minifyMapping tool opts we fs m).2 = true := by
  unfold minifyMapping
  split
  · rfl
  · cases h : tool opts fs m.src with
    | none =>
      have := htool opts fs m.src
      rw [h] at this
      exact Bool.noConfusion this
    | some out => rfl

/-- With minifiers that report no error, every job goes on. -/
theorem runJob_ok_of_total {tools : Tools}
    (hcss : ∀ o f s, (tools.cssmin o f s).isSome = true)
    (hug : ∀ o f s, (tools.uglify o f s).isSome = true) (fs : FS) (j : Job) :
    (runJob tools fs j).ok = true := by
  unfold runJob
  split
  · rfl
  · split
    · exact minifyAll_ok_of_total (minifyMapping_ok_of_total hcss _ _) _ _
    · split
      · exact minifyAll_ok_of_total (minifyMapping_ok_of_total hug _ _) _ _
      · rfl

/-- With minifiers that report no error, a run of jobs goes to its end. -/
theorem runJobs_done_of_total {tools : Tools}
    (hcss : ∀ o f s, (tools.cssmin o f s).isSome = true)
    (hug : ∀ o f s, (tools.uglify o f s).isSome = true) (jobs : List Job) (fs : FS) :
    (runJobs tools jobs fs).status = .done := by
  induction jobs generalizing fs with
  | nil => rfl
  | cons j js ih =>
    rw [(runJobs_cons_ok (runJob_ok_of_total hcss hug fs j)).2.1]
    exact ih _

/-- A run of jobs ends at its end or in a job whose minifier reported an error. -/
theorem runJobs_status (tools : Tools) (jobs : List Job) (fs : FS) :
    (runJobs tools jobs fs).status = .done
      ∨ ∃ j ∈ jobs, (runJobs tools jobs fs).status = .toolFailed j.task j.target := by
  induction jobs generalizing fs with
  | nil => left; rfl
  | cons j js ih =>
    cases hok : (runJob tools fs j).ok with
    | false =>
      right
      exact ⟨j, List.mem_cons_self _ _, (runJobs_cons_fail hok).2.1⟩
    | true =>
      rw [(runJobs_cons_ok hok).2.1]
      rcases ih (runJob tools fs j).fs with h | ⟨j2, hj2, h⟩
      · exact Or.inl h
      · exact Or.inr ⟨j2, List.mem_cons_of_mem _ hj2, h⟩

/-! ## The default task and the configuration -/

/-- C1: the only registered task is `default`, and it is the list of the four
sub-tasks `copy:bower`, `cssmin`, `uglify:bower`, `uglify:app` in this
order: a copy job, a cssmin job, then two uglify jobs. -/
theorem c1_default_task :
    registerTask.lookup "default"
        = some ["copy:bower", "cssmin", "uglify:bower", "uglify:app"]
      ∧ registerTask.map Prod.fst = ["default"]
      ∧ (taskJobs "default").map (fun jobs => jobs.map (fun j => j.task))
        = some ["copy", "cssmin", "uglify", "uglify"] := by
  decide

/-- C2, as stated, fails: the third copy rule (the flags) has no `filter`. -/
theorem c2_filter_missing :
    ¬ (∀ r ∈ copy.bower.files, r.filter.isSome = true) := by
  decide

/-- C2, amended: every copy rule has a non-empty `src` list, a `dest` ending in a
slash, `expand` and `flatten` set; the `filter` is `isFile` on the rules
whose source is a wildcard pattern and absent on the rules that list their
files. -/
theorem c2_copy_rule_components :
    ∀ r ∈ copy.bower.files,
      r.src ≠ [] ∧ endsWithSlash r.dest = true ∧ r.expand = true ∧ r.flatten = true
        ∧ r.filter = (if r.src.any hasStar then some "isFile" else none) := by
  decide

/-- C2, amended, at a rule: the rule of the bootstrap fonts. -/
theorem c2_copy_rule_components_witness :
    ({ expand := true, flatten := true, src := ["bower_components/bootstrap/fonts/*"],
       dest := "opwen_email_client/webapp/static/fonts/",
       filter := some "isFile" } : CopyRule).filter = some "isFile" :=
  (c2_copy_rule_components _ (by decide)).2.2.2.2

/-- C5: for every minify rule, the base name of the output is the base name of
its one input with `.min` inserted before the extension, and the extension
is the one of the minifier. -/
theorem c5_minified_names :
    (∀ m ∈ cssmin.target.files,
        m.src.length = 1 ∧ extname m.dest = ".css"
          ∧ ∀ s ∈ m.src, extname s = ".css" ∧ basename m.dest = minName (basename s))
      ∧ (∀ m ∈ uglify.bower.files ++ uglify.app.files,
        m.src.length = 1 ∧ extname m.dest = ".js"
          ∧ ∀ s ∈ m.src, extname s = ".js" ∧ basename m.dest = minName (basename s)) := by
  decide

/-- C6: every minify rule has at least one input path, and the jobs of the
default task carry the options written in the file: cssmin runs with
`shorthandCompacting` false and `roundingPrecision` -1, both uglify targets
with `mangle` and `compress` true. -/
theorem c6_minify_rules :
    (∀ m ∈ minifyRules, m.src ≠ [])
      ∧ (taskJobs "default").map
          (fun jobs => (jobs.filter (fun j => j.task != "copy")).map
            (fun j => (j.task, j.target, j.options)))
        = some
          [ ("cssmin", "target",
              [("shorthandCompacting", .bool false), ("roundingPrecision", .num (-1))]),
            ("uglify", "bower", [("mangle", .bool true), ("compress", .bool true)]),
            ("uglify", "app", [("mangle", .bool true), ("compress", .bool true)]) ] := by
  decide

/-- C9: every sub-task of the default task resolves, `cssmin` alone resolves to
all the targets of cssmin, the jobs of the default task are exactly the
targets the configuration defines, each with its `files`, and no run of the
default task, on any file system and with any tools, ends on a sub-task
name that does not resolve. -/
theorem c9_default_covers_config :
    (∀ subs, registerTask.lookup "default" = some subs →
        ∀ name ∈ subs, (resolve name).isSome = true)
      ∧ (resolve "cssmin").map (fun jobs => jobs.map (fun j => (j.task, j.target)))
          = some [("cssmin", "target")]
      ∧ (taskJobs "default").map (fun jobs => jobs.map (fun j => (j.task, j.target)))
          = some [("copy", "bower"), ("cssmin", "target"), ("uglify", "bower"),
                  ("uglify", "app")]
      ∧ (taskJobs "default").map (fun jobs => jobs.map (fun j => (j.task, j.target)))
          = some configuredTargets
      ∧ (taskJobs "default").map (fun jobs => jobs.map (fun j => j.files))
          = some [Files.array copy.bower.files, Files.object cssmin.target.files,
                  Files.object uglify.bower.files, Files.object uglify.app.files]
      ∧ (∀ (tools : Tools) (fs : FS), (runTask tools "default" fs).status ≠ .unresolved) := by
  refine ⟨?_, by decide, by decide, by decide, by decide, ?_⟩
  swap
  · intro tools fs
    rcases runTask_default tools fs with ⟨_, e⟩ | ⟨_, e⟩
    · rw [e]
      exact fun h => Status.noConfusion h
    · rw [e]
      rcases runJobs_status tools defaultJobs fs with h | ⟨j, _, h⟩
      · rw [h]
        exact fun h2 => Status.noConfusion h2
      · rw [h]
        exact fun h2 => Status.noConfusion h2
  intro subs h
  have : subs = ["copy:bower", "cssmin", "uglify:bower", "uglify:app"] := by
    have h2 : registerTask.lookup "default"
        = some ["copy:bower", "cssmin", "uglify:bower", "uglify:app"] := by decide
    rw [h2] at h
    exact (Option.some.inj h).symm
  subst this
  decide

/-! ## The output paths of a run -/

/-- C3, as stated, fails: when the two fonts directories both hold a file `a.ttf`,
the two font rules both write `opwen_email_client/webapp/static/fonts/a.ttf`. -/
theorem c3_fonts_clash : ¬ WritesOnce concatTools fsClash := by
  unfold WritesOnce
  decide

/-- C3, amended: in a run of the default task on any file system, two (rule,
source) pairs that write the same output path are the same pair, or they
come from the two font rules, one each, for two sources of the same base
name. -/
theorem c3_writes_once_up_to_fonts (tools : Tools) (fs : FS) (w w2 : Write)
    (hw : w ∈ taskTrace tools "default" fs) (hw2 : w2 ∈ taskTrace tools "default" fs)
    (e : w.dest = w2.dest) :
    w = w2 ∨ (w.rule ≠ w2.rule ∧ w.rule ∈ fontRules ∧ w2.rule ∈ fontRules
      ∧ basename w.src = basename w2.src) :=
  dest_inj (taskTrace_cases hw) (taskTrace_cases hw2) e

/-- C3, amended, at the file system with the two `a.ttf`: the two writes of
`fonts/a.ttf` come from the two font rules. -/
theorem c3_writes_once_up_to_fonts_witness :
    clashWrite1 = clashWrite2
      ∨ (clashWrite1.rule ≠ clashWrite2.rule ∧ clashWrite1.rule ∈ fontRules
        ∧ clashWrite2.rule ∈ fontRules
        ∧ basename clashWrite1.src = basename clashWrite2.src) :=
  c3_writes_once_up_to_fonts concatTools fsClash clashWrite1 clashWrite2
    (by decide) (by decide) (by decide)

/-- C4: the `dest` of every copy rule and the key of every minify rule start with
the static-asset tree followed by `fonts/`, `flags/`, `js/` or `css/`; so
does the output path of every pair a run of the default task goes through,
on any file system, and a run, however it ends, leaves every other path as
it was. -/
theorem c4_writes_under_static :
    (∀ r ∈ copy.bower.files, underStatic r.dest = true)
      ∧ (∀ m ∈ minifyRules, underStatic m.dest = true)
      ∧ (∀ (tools : Tools) (fs : FS), ∀ w ∈ taskTrace tools "default" fs,
          underStatic w.dest = true)
      ∧ (∀ (tools : Tools) (fs : FS) (p : String), underStatic p = false →
          (runTask tools "default" fs).fs.read p = fs.read p) := by
  refine ⟨by decide, by decide, ?_, ?_⟩
  · intro tools fs w hw
    rcases taskTrace_cases hw with h | h
    · exact (literalWrites_facts w h).2.2.2.1
    · exact h.underStatic
  · intro tools fs p hp
    apply runTask_frame
    intro w hw e
    have : underStatic w.dest = true := by
      rcases hw with h | h
      · exact (literalWrites_facts w h).2.2.2.1
      · exact h.underStatic
    rw [e, hp] at this
    exact Bool.noConfusion this

/-- C7: every source pattern of every copy rule, and the input of `uglify:bower`,
starts with `bower_components/` followed by a package name and a path inside
the package; on any file system, every file the copy task reads is such a
path. -/
theorem c7_sources_in_packages :
    (∀ r ∈ copy.bower.files, ∀ s ∈ r.src, (packageOf s).isSome = true)
      ∧ (∀ m ∈ uglify.bower.files, ∀ s ∈ m.src, (packageOf s).isSome = true)
      ∧ (∀ (tools : Tools) (fs : FS), ∀ w ∈ taskTrace tools "default" fs,
          w.task = "copy" → (packageOf w.src).isSome = true) := by
  refine ⟨by decide, by decide, ?_⟩
  intro tools fs w hw ht
  rcases taskTrace_cases hw with h | h
  · exact (literalWrites_facts w h).2.2.2.2.1 ht
  · exact h.package

/-- C10: in a run of the default task on any file system, no output path is the
path of a source, and every source holds after the run, however it ends,
what it held before; more generally no output path of a pair of a default
job, on any file system, is the source of a pair of a default job, on any
file system, and a run leaves every such source as it was. -/
theorem c10_outputs_disjoint_from_inputs (tools : Tools) (fs : FS) :
    (∀ w ∈ taskTrace tools "default" fs, ∀ w2 ∈ taskTrace tools "default" fs,
        w.dest ≠ w2.src)
      ∧ (∀ w ∈ taskTrace tools "default" fs,
          (runTask tools "default" fs).fs.read w.src = fs.read w.src)
      ∧ (∀ (fs1 fs2 : FS), ∀ j ∈ defaultJobs, ∀ j2 ∈ defaultJobs,
          ∀ w ∈ jobWrites fs1 j, ∀ w2 ∈ jobWrites fs2 j2, w.dest ≠ w2.src)
      ∧ (∀ (fs1 : FS), ∀ j ∈ defaultJobs, ∀ w ∈ jobWrites fs1 j,
          (runTask tools "default" fs).fs.read w.src = fs.read w.src) := by
  refine ⟨?_, ?_, ?_, ?_⟩
  · exact fun w hw w2 hw2 => dest_ne_src (taskTrace_cases hw) (taskTrace_cases hw2)
  · intro w hw
    apply runTask_frame
    exact fun w2 hw2 => dest_ne_src hw2 (taskTrace_cases hw)
  · exact fun fs1 fs2 j hj j2 hj2 w hw w2 hw2 =>
      dest_ne_src (jobWrites_cases hj hw) (jobWrites_cases hj2 hw2)
  · intro fs1 j hj w hw
    apply runTask_frame
    exact fun w2 hw2 => dest_ne_src hw2 (jobWrites_cases hj hw)

/-- C8, as stated, fails: in the project where `package.json` and every referenced
source exist and the flag `ca.svg` is empty, the default task runs to its end
and the listed destination `opwen_email_client/webapp/static/flags/4x3/ca.svg`
then exists and is empty. -/
theorem c8_empty_source_empty_destination :
    (∀ s ∈ referencedSources, (fsEmptyFlag.read s).isSome = true)
      ∧ "opwen_email_client/webapp/static/flags/4x3/ca.svg" ∈ listedDestinations
      ∧ (runTask concatTools "default" fsEmptyFlag).status = .done
      ∧ (runTask concatTools "default" fsEmptyFlag).fs.read
          "opwen_email_client/webapp/static/flags/4x3/ca.svg" = some ""
      ∧ nonEmptyAt (runTask concatTools "default" fsEmptyFlag).fs
          "opwen_email_client/webapp/static/flags/4x3/ca.svg" = false := by
  decide

/-- C8, amended: on a file system in which every referenced source exists,
(1) once the Gruntfile has loaded, the run leaves at every listed
destination of the copy step the content of its source, whether or not a
minifier aborts the run later, so that this file exists and is non-empty
exactly when its source is; (2) when the default task runs to its end,
every listed destination exists, and every minified destination holds the
text its minifier, called with the options of its job on the inputs of its
rule, returned on a file system in which these inputs read as before the
run; (3) the default task does run to its end when the Gruntfile loads and
the two minifiers report no error. -/
theorem c8_listed_destinations (tools : Tools) (fs : FS)
    (h : ∀ s ∈ referencedSources, (fs.read s).isSome = true) :
    ((runTask tools "default" fs).status ≠ .loadFailed →
        ∀ w ∈ literalWrites, w.task = "copy" →
          (runTask tools "default" fs).fs.read w.dest = fs.read w.src
            ∧ ((runTask tools "default" fs).fs.read w.dest).isSome = true
            ∧ nonEmptyAt (runTask tools "default" fs).fs w.dest = nonEmptyAt fs w.src)
      ∧ ((runTask tools "default" fs).status = .done →
          (∀ d ∈ listedDestinations, ((runTask tools "default" fs).fs.read d).isSome = true)
            ∧ ∀ j ∈ defaultJobs, ∀ w ∈ literalWrites, w.task = j.task → w.target = j.target →
              (j.task = "cssmin" → ∃ (at0 : FS) (c : String),
                  tools.cssmin j.options at0 w.rule.src = some c
                    ∧ (∀ s ∈ w.rule.src, at0.read s = fs.read s)
                    ∧ (runTask tools "default" fs).fs.read w.dest = some c)
              ∧ (j.task = "uglify" → ∃ (at0 : FS) (c : String),
                  tools.uglify j.options at0 w.rule.src = some c
                    ∧ (∀ s ∈ w.rule.src, at0.read s = fs.read s)
                    ∧ (runTask tools "default" fs).fs.read w.dest = some c))
      ∧ (loadGruntfile tools fs = true →
          (∀ o f s, (tools.cssmin o f s).isSome = true) →
          (∀ o f s, (tools.uglify o f s).isSome = true) →
          (runTask tools "default" fs).status = .done) := by
  have hsrcs : ∀ w ∈ literalWrites, ∀ s ∈ w.rule.src, (fs.read s).isSome = true :=
    fun w hw s hs => h s (literalWrites_rule_sources w hw s hs)
  have hcopy : (runTask tools "default" fs).status ≠ .loadFailed →
      ∀ w ∈ literalWrites, w.task = "copy" →
        (runTask tools "default" fs).fs.read w.dest = fs.read w.src := by
    intro hload w hw hc
    exact runTask_copy_value hw hc (h w.src (List.mem_map.2 ⟨w, hw, rfl⟩)) hload
  have hprod : (runTask tools "default" fs).status = .done →
      ∀ j ∈ defaultJobs, ∀ w ∈ literalWrites, w.task = j.task → w.target = j.target →
        Produced tools j w fs ((runTask tools "default" fs).fs.read w.dest) := by
    intro hdone j hj w hw ht htg
    rcases runTask_default tools fs with ⟨_, e⟩ | ⟨_, e⟩
    · rw [e] at hdone
      exact Status.noConfusion hdone
    · rw [e] at hdone ⊢
      exact runJobs_value hj hw ht htg (hsrcs w hw) defaultJobs (fun _ hx => hx) fs
        (fun _ _ => rfl) (Or.inl hj) hdone
  refine ⟨?_, ?_, ?_⟩
  · intro hload w hw hc
    have hr := hcopy hload w hw hc
    refine ⟨hr, ?_, ?_⟩
    · rw [hr]
      exact h w.src (List.mem_map.2 ⟨w, hw, rfl⟩)
    · unfold nonEmptyAt
      rw [hr]
  · intro hdone
    constructor
    · intro d hd
      obtain ⟨w, hw, rfl⟩ := List.mem_map.1 hd
      obtain ⟨j, hj, ht, htg⟩ := literalWrites_job w hw
      obtain ⟨hk, _, _⟩ := defaultJobs_shape j hj
      obtain ⟨p1, p2, p3⟩ := hprod hdone j hj w hw ht htg
      rcases hk with hk | hk | hk
      · rw [p1 hk]
        exact h w.src (List.mem_map.2 ⟨w, hw, rfl⟩)
      · obtain ⟨_, c, _, _, e⟩ := p2 hk
        rw [e]
        rfl
      · obtain ⟨_, c, _, _, e⟩ := p3 hk
        rw [e]
        rfl
    · intro j hj w hw ht htg
      exact (hprod hdone j hj w hw ht htg).2
  · intro hload hcss hug
    rcases runTask_default tools fs with ⟨e0, _⟩ | ⟨_, e⟩
    · rw [e0] at hload
      exact Bool.noConfusion hload
    · rw [e]
      exact runJobs_done_of_total hcss hug defaultJobs fs

/-- C8, amended, at the project with the empty flag and with the stand-in
tools. -/
theorem c8_listed_destinations_witness :
    ((runTask concatTools "default" fsEmptyFlag).status ≠ .loadFailed →
        ∀ w ∈ literalWrites, w.task = "copy" →
          (runTask concatTools "default" fsEmptyFlag).fs.read w.dest = fsEmptyFlag.read w.src
            ∧ ((runTask concatTools "default" fsEmptyFlag).fs.read w.dest).isSome = true
            ∧ nonEmptyAt (runTask concatTools "default" fsEmptyFlag).fs w.dest
              = nonEmptyAt fsEmptyFlag w.src)
      ∧ ((runTask concatTools "default" fsEmptyFlag).status = .done →
          (∀ d ∈ listedDestinations,
              ((runTask concatTools "default" fsEmptyFlag).fs.read d).isSome = true)
            ∧ ∀ j ∈ defaultJobs, ∀ w ∈ literalWrites, w.task = j.task → w.target = j.target →
              (j.task = "cssmin" → ∃ (at0 : FS) (c : String),
                  concatTools.cssmin j.options at0 w.rule.src = some c
                    ∧ (∀ s ∈ w.rule.src, at0.read s = fsEmptyFlag.read s)
                    ∧ (runTask concatTools "default" fsEmptyFlag).fs.read w.dest = some c)
              ∧ (j.task = "uglify" → ∃ (at0 : FS) (c : String),
                  concatTools.uglify j.options at0 w.rule.src = some c
                    ∧ (∀ s ∈ w.rule.src, at0.read s = fsEmptyFlag.read s)
                    ∧ (runTask concatTools "default" fsEmptyFlag).fs.read w.dest = some c))
      ∧ (loadGruntfile concatTools fsEmptyFlag = true →
          (∀ o f s, (concatTools.cssmin o f s).isSome = true) →
          (∀ o f s, (concatTools.uglify o f s).isSome = true) →
          (runTask concatTools "default" fsEmptyFlag).status = .done) :=
  c8_listed_destinations concatTools fsEmptyFlag (by decide)

end Gruntfile
